import Mathlib

/-!
Symbol decoding (`core/symbol_decoding.cc`).

A shallow embedding of the symbol-decoding orchestration layer: the zig-zag
remapper `ConvertSymbolToSignedInt`, the scheme dispatcher `DecodeSymbols`, the
tagged path `DecodeTaggedSymbols` and the raw path `DecodeRawSymbols` /
`DecodeRawSymbolsInternal`.

The byte/bit reader (`DecoderBuffer`) and the statistical decoder
(`SymbolDecoderT<w>`) are collaborators whose code is not part of this file of
the repository; the orchestration is generic in them (`Collab`).

C++ `int` values are modelled as `Int`. All comparisons are exact; the loop
counters are incremented without wrap-around (signed overflow is undefined
behaviour in the source language, so the model agrees with the program wherever
the program has a meaning).
-/

namespace Draco

/-! ## Zig-zag remapping -/

/-- Reinterpretation of an integer as a two's complement signed 32-bit value. -/
def wrapInt32 (x : Int) : Int :=
  (x + 2 ^ 31) % 2 ^ 32 - 2 ^ 31

/-- Embedding of `int32_t ConvertSymbolToSignedInt(uint32_t val)`. The argument
is an unsigned 32-bit value (taken modulo `2^32`), and every signed operation
is followed by the 32-bit wrap. -/
def ConvertSymbolToSignedInt (val : Nat) : Int :=
  let val0 := val % 2 ^ 32
  let is_negative : Bool := (val0 &&& 1) != 0
  let val1 := val0 >>> 1
  let ret : Int := wrapInt32 (Int.ofNat val1)
  if is_negative then wrapInt32 (wrapInt32 (-ret) - 1) else ret

/-- The loop `for (int i = 0; i < in_values; ++i) out[i] = ConvertSymbolToSignedInt(in[i]);`
of `ConvertSymbolsToSignedInts`: `n` is the number of iterations left, `i` the
index; `inp` is the memory behind the pointer `in`, `out` the memory behind `out`. -/
def convertLoop (inp : Nat → Nat) : Nat → Nat → (Nat → Int) → (Nat → Int)
  | 0, _, out => out
  | n + 1, i, out =>
    convertLoop inp n (i + 1) (Function.update out i (ConvertSymbolToSignedInt (inp i)))

/-- Embedding of `void ConvertSymbolsToSignedInts(const uint32_t *in, int in_values,
int32_t *out)`; the result is the memory behind `out` after the call. -/
def ConvertSymbolsToSignedInts (inp : Nat → Nat) (in_values : Int) (out : Nat → Int) :
    Nat → Int :=
  convertLoop inp in_values.toNat 0 out

/-! ## Collaborators and program state -/

/-- The operations the orchestration uses on its collaborators. `β` is the state
of the `DecoderBuffer` (contents and cursor), `δ` the state of a statistical
decoder object. A failing call still returns the state it leaves behind. -/
structure Collab (β δ : Type) where
  /-- The call `src_buffer->Decode(&byte)` for a `uint8_t`. -/
  decodeU8 : β → Option Nat × β
  /-- The call `src_buffer->StartBitDecoding(false, nullptr)`; its result is discarded. -/
  startBitDecoding : β → β
  /-- The call `src_buffer->DecodeLeastSignificantBits32(nbits, &val)`. -/
  decodeLSB32 : Nat → β → Option Nat × β
  /-- The call `src_buffer->EndBitDecoding()`. -/
  endBitDecoding : β → β
  /-- Construction of a `SymbolDecoderT<w>` followed by `Create(src_buffer)`. -/
  create : Nat → β → Bool × δ × β
  /-- The call `decoder.StartDecoding(src_buffer)`. -/
  startDecoding : δ → β → Bool × δ × β
  /-- The call `decoder.num_symbols()`. -/
  numSymbols : δ → Nat
  /-- The call `decoder.DecodeSymbol()`. -/
  decodeSymbol : δ → Nat × δ
  /-- The call `decoder.EndDecoding()`. -/
  endDecoding : δ → δ

/-- Calls made on the collaborators and stores into `out_values`, in program order. -/
inductive Event where
  | readByte (v : Option Nat)
  | create (w : Nat) (ok : Bool)
  | startDecoding (ok : Bool)
  | startBitDecoding
  | decodeSymbol (v : Nat)
  | readBits (nbits : Nat) (v : Option Nat)
  | write (idx : Nat) (v : Nat)
  | endDecoding
  | endBitDecoding
  deriving DecidableEq, Repr

/-- What a decode call can observe and change: the stream, the caller's output
buffer `out_values` (indexed from its first slot), and the record of calls. -/
structure St (β : Type) where
  buf : β
  out : Nat → Nat
  log : List Event

/-- Store `v` at `out_values[idx]`. -/
def St.store {β : Type} (s : St β) (idx v : Nat) : St β :=
  { s with out := Function.update s.out idx v, log := s.log ++ [Event.write idx v] }

/-- Replace the stream state and record one event. -/
def St.step {β : Type} (s : St β) (b : β) (e : Event) : St β :=
  { s with buf := b, log := s.log ++ [e] }

/-! ## Raw path -/

/-- The loop `for (int i = 0; i < num_values; ++i) out_values[i] = decoder.DecodeSymbol();`
of `DecodeRawSymbolsInternal`: `n` is the number of iterations left, `i` the index. -/
def rawLoop {β δ : Type} (C : Collab β δ) : Nat → Nat → δ → St β → δ × St β
  | 0, _, d, s => (d, s)
  | n + 1, i, d, s =>
    let r := C.decodeSymbol d
    rawLoop C n (i + 1) r.2 ((s.step s.buf (Event.decodeSymbol r.1)).store i r.1)

/-- Embedding of `DecodeRawSymbolsInternal<SymbolDecoderT<w>>`. -/
def DecodeRawSymbolsInternal {β δ : Type} (C : Collab β δ) (w : Nat) (num_values : Int)
    (s : St β) : Bool × St β :=
  match C.create w s.buf with
  | (false, _, b0) => (false, s.step b0 (Event.create w false))
  | (true, d0, b0) =>
    let s0 := s.step b0 (Event.create w true)
    if num_values > 0 ∧ C.numSymbols d0 = 0 then (false, s0)
    else
      match C.startDecoding d0 b0 with
      | (false, _, b1) => (false, s0.step b1 (Event.startDecoding false))
      | (true, d1, b1) =>
        let s1 := s0.step b1 (Event.startDecoding true)
        let r := rawLoop C num_values.toNat 0 d1 s1
        (true, r.2.step r.2.buf Event.endDecoding)

/-- Embedding of `DecodeRawSymbols`: read `max_bit_length`, then the `switch`
over the eighteen supported widths. -/
def DecodeRawSymbols {β δ : Type} (C : Collab β δ) (num_values : Int) (s : St β) :
    Bool × St β :=
  match C.decodeU8 s.buf with
  | (none, b) => (false, s.step b (Event.readByte none))
  | (some max_bit_length, b) =>
    let s0 := s.step b (Event.readByte (some max_bit_length))
    match max_bit_length with
    | 1 => DecodeRawSymbolsInternal C 1 num_values s0
    | 2 => DecodeRawSymbolsInternal C 2 num_values s0
    | 3 => DecodeRawSymbolsInternal C 3 num_values s0
    | 4 => DecodeRawSymbolsInternal C 4 num_values s0
    | 5 => DecodeRawSymbolsInternal C 5 num_values s0
    | 6 => DecodeRawSymbolsInternal C 6 num_values s0
    | 7 => DecodeRawSymbolsInternal C 7 num_values s0
    | 8 => DecodeRawSymbolsInternal C 8 num_values s0
    | 9 => DecodeRawSymbolsInternal C 9 num_values s0
    | 10 => DecodeRawSymbolsInternal C 10 num_values s0
    | 11 => DecodeRawSymbolsInternal C 11 num_values s0
    | 12 => DecodeRawSymbolsInternal C 12 num_values s0
    | 13 => DecodeRawSymbolsInternal C 13 num_values s0
    | 14 => DecodeRawSymbolsInternal C 14 num_values s0
    | 15 => DecodeRawSymbolsInternal C 15 num_values s0
    | 16 => DecodeRawSymbolsInternal C 16 num_values s0
    | 17 => DecodeRawSymbolsInternal C 17 num_values s0
    | 18 => DecodeRawSymbolsInternal C 18 num_values s0
    | _ => (false, s0)

/-! ## Tagged path -/

/-- The inner loop `for (int j = 0; j < num_components; ++j)` of
`DecodeTaggedSymbols`: `n` is the number of iterations left, `value_id` the next
output index. Returns `false` at the first failing bit read. -/
def componentLoop {β δ : Type} (C : Collab β δ) (bit_length : Nat) :
    Nat → Nat → St β → Bool × Nat × St β
  | 0, value_id, s => (true, value_id, s)
  | n + 1, value_id, s =>
    match C.decodeLSB32 bit_length s.buf with
    | (none, b) => (false, value_id, s.step b (Event.readBits bit_length none))
    | (some val, b) =>
      componentLoop C bit_length n (value_id + 1)
        ((s.step b (Event.readBits bit_length (some val))).store value_id val)

/-- The variables live across iterations of the group loop of `DecodeTaggedSymbols`. -/
structure TagLoop (β δ : Type) where
  i : Int
  value_id : Nat
  dec : δ
  st : St β

/-- One iteration of the group loop (the body, then `i += num_components`);
`false` when the body executed `return false`. -/
def taggedGroup {β δ : Type} (C : Collab β δ) (num_components : Int) (L : TagLoop β δ) :
    Bool × TagLoop β δ :=
  let r := C.decodeSymbol L.dec
  let bit_length := r.1
  let s0 := L.st.step L.st.buf (Event.decodeSymbol bit_length)
  match componentLoop C bit_length num_components.toNat L.value_id s0 with
  | (false, vid, s1) => (false, { i := L.i, value_id := vid, dec := r.2, st := s1 })
  | (true, vid, s1) =>
    (true, { i := L.i + num_components, value_id := vid, dec := r.2, st := s1 })

/-- The group loop `for (int i = 0; i < num_values; i += num_components)`. The
first argument bounds the number of iterations; `none` means the bound was
reached with the loop condition still true. -/
def taggedLoop {β δ : Type} (C : Collab β δ) (num_values num_components : Int) :
    Nat → TagLoop β δ → Option (Bool × TagLoop β δ)
  | 0, L => if L.i < num_values then none else some (true, L)
  | fuel + 1, L =>
    if L.i < num_values then
      match taggedGroup C num_components L with
      | (false, L1) => some (false, L1)
      | (true, L1) => taggedLoop C num_values num_components fuel L1
    else some (true, L)

/-- Embedding of `DecodeTaggedSymbols<SymbolDecoderT>`; `fuel` bounds the number
of iterations of the group loop. -/
def DecodeTaggedSymbols {β δ : Type} (C : Collab β δ) (fuel : Nat)
    (num_values num_components : Int) (s : St β) : Option (Bool × St β) :=
  match C.create 5 s.buf with
  | (false, _, b0) => some (false, s.step b0 (Event.create 5 false))
  | (true, d0, b0) =>
    let s0 := s.step b0 (Event.create 5 true)
    match C.startDecoding d0 b0 with
    | (false, _, b1) => some (false, s0.step b1 (Event.startDecoding false))
    | (true, d1, b1) =>
      let s1 := s0.step b1 (Event.startDecoding true)
      if num_values > 0 ∧ C.numSymbols d1 = 0 then some (false, s1)
      else
        let s2 := s1.step (C.startBitDecoding b1) Event.startBitDecoding
        match taggedLoop C num_values num_components fuel
            { i := 0, value_id := 0, dec := d1, st := s2 } with
        | none => none
        | some (false, L) => some (false, L.st)
        | some (true, L) =>
          let s3 := L.st.step L.st.buf Event.endDecoding
          some (true, s3.step (C.endBitDecoding s3.buf) Event.endBitDecoding)

/-! ## Dispatcher -/

/-- Embedding of `DecodeSymbols`; `fuel` is handed to the tagged path. -/
def DecodeSymbols {β δ : Type} (C : Collab β δ) (fuel : Nat)
    (num_values num_components : Int) (s : St β) : Option (Bool × St β) :=
  if num_values < 0 then some (false, s)
  else if num_values = 0 then some (true, s)
  else
    match C.decodeU8 s.buf with
    | (none, b) => some (false, s.step b (Event.readByte none))
    | (some scheme, b) =>
      let s0 := s.step b (Event.readByte (some scheme))
      if scheme = 0 then DecodeTaggedSymbols C fuel num_values num_components s0
      else if scheme = 1 then some (DecodeRawSymbols C num_values s0)
      else some (false, s0)

/-! ## Vocabulary for stating properties -/

/-- The decoder state after `k` calls of `DecodeSymbol` from the state `d`. -/
def decAfter {β δ : Type} (C : Collab β δ) (d : δ) (k : Nat) : δ :=
  Nat.iterate (fun x => (C.decodeSymbol x).2) k d

/-- The value returned by call number `k` (counted from 0) of `DecodeSymbol` in a
session whose decoder starts in the state `d`. -/
def nthSymbol {β δ : Type} (C : Collab β δ) (d : δ) (k : Nat) : Nat :=
  (C.decodeSymbol (decAfter C d k)).1

/-- The value `ceil(num_values / num_components)` for `num_components ≥ 1`. -/
def numGroups (num_values num_components : Int) : Nat :=
  ((num_values + num_components - 1) / num_components).toNat

/-- Whether an event is a `DecodeSymbol` call. -/
def Event.isDecodeSymbol : Event → Bool
  | Event.decodeSymbol _ => true
  | _ => false

/-- Whether an event is a bit-field read. -/
def Event.isReadBits : Event → Bool
  | Event.readBits _ _ => true
  | _ => false

/-- Whether an event is a store into `out_values`. -/
def Event.isWrite : Event → Bool
  | Event.write _ _ => true
  | _ => false

/-- The indices of `out_values` stored to, in the order of the stores. -/
def writtenIndices (log : List Event) : List Nat :=
  log.filterMap (fun e => match e with
    | Event.write idx _ => some idx
    | _ => none)

/-- The events of one group of the tagged body: the tag decode, then for each of
the `n` components a read of `tag` bits and the store of the value read; `base`
is the output index of the first component and `val` gives the value at an index. -/
def groupEvents (tag n base : Nat) (val : Nat → Nat) : List Event :=
  Event.decodeSymbol tag ::
    (List.range n).flatMap (fun j =>
      [Event.readBits tag (some (val (base + j))), Event.write (base + j) (val (base + j))])

/-- The stream state after `j` successive calls of
`DecodeLeastSignificantBits32(t, _)` from the stream state `b`. -/
def readsBuf {β δ : Type} (C : Collab β δ) (t : Nat) (b : β) (j : Nat) : β :=
  Nat.iterate (fun x => (C.decodeLSB32 t x).2) j b

/-- The stream state after the first `k` bit-field reads of a tagged body with
`n` components per group, read from the stream state `b` with a tag decoder that
starts in the state `d`: read number `k` asks for as many bits as tag number
`k / n` says. -/
def fieldBuf {β δ : Type} (C : Collab β δ) (n : Nat) (d : δ) (b : β) : Nat → β
  | 0 => b
  | k + 1 => (C.decodeLSB32 (nthSymbol C d (k / n)) (fieldBuf C n d b k)).2

/-- What bit-field read number `k` of such a body returns. -/
def nthField {β δ : Type} (C : Collab β δ) (n : Nat) (d : δ) (b : β) (k : Nat) : Option Nat :=
  (C.decodeLSB32 (nthSymbol C d (k / n)) (fieldBuf C n d b k)).1

/-- The events of the raw symbol loop over `n` values: call `i` of `DecodeSymbol`
followed by the store of its result at index `i`. -/
def rawEvents (n : Nat) (val : Nat → Nat) : List Event :=
  (List.range n).flatMap (fun i => [Event.decodeSymbol (val i), Event.write i (val i)])

/-- Whether an event is a bit-field read that succeeded. -/
def Event.isFieldRead : Event → Bool
  | Event.readBits _ (some _) => true
  | _ => false

/-- Whether an event is a `StartBitDecoding` call. -/
def Event.isStartBit : Event → Bool
  | Event.startBitDecoding => true
  | _ => false

/-- Whether an event is an `EndBitDecoding` call. -/
def Event.isEndBit : Event → Bool
  | Event.endBitDecoding => true
  | _ => false

/-- The loop variables after `k` iterations of the group loop body, started from `L`. -/
def taggedIter {β δ : Type} (C : Collab β δ) (num_components : Int) (k : Nat)
    (L : TagLoop β δ) : TagLoop β δ :=
  Nat.iterate (fun x => (taggedGroup C num_components x).2) k L

/-- The unsigned value that the zig-zag scheme assigns to the signed value `s`:
`2 * s` for `s ≥ 0` and `-2 * s - 1` for `s < 0`. -/
def zigzagPreimage (s : Int) : Nat :=
  if 0 ≤ s then (2 * s).toNat else (-2 * s - 1).toNat

/-- The memory holding the array `xs` from index 0 on. -/
def arrayOf (xs : List Nat) : Nat → Nat :=
  fun i => xs.getD i 0

/-! ## A concrete collaborator

A small byte-list stream and table-free decoder on which the orchestration can
be evaluated on explicit inputs. -/

/-- State of the demonstration decoder: the table size it reports and the
symbols it has still to deliver. -/
structure DemoDecoder where
  num_symbols : Nat
  symbols : List Nat
  deriving DecidableEq, Repr

/-- A collaborator over a list of numbers: bytes are taken from the front; a
decoder header is one number (the table size); a session header is a count `k`
followed by the `k` symbols of the session; a bit field of width `n ≤ 32` is the
next number reduced modulo `2^n`. -/
def demo : Collab (List Nat) DemoDecoder where
  decodeU8 b :=
    match b with
    | [] => (none, [])
    | x :: t => (some (x % 256), t)
  startBitDecoding b := b
  decodeLSB32 n b :=
    match b with
    | [] => (none, [])
    | x :: t => if n ≤ 32 then (some (x % 2 ^ n), t) else (none, x :: t)
  endBitDecoding b := b
  create _ b :=
    match b with
    | [] => (false, ⟨0, []⟩, [])
    | n :: t => (true, ⟨n, []⟩, t)
  startDecoding d b :=
    match b with
    | [] => (false, d, [])
    | k :: t =>
      if k ≤ t.length then (true, { d with symbols := t.take k }, t.drop k)
      else (false, d, t)
  numSymbols d := d.num_symbols
  decodeSymbol d :=
    match d.symbols with
    | [] => (0, d)
    | x :: t => (x, { d with symbols := t })
  endDecoding d := d

/-- A fresh call state over the stream `b`: zeroed output buffer, empty record. -/
def demoSt (b : List Nat) : St (List Nat) :=
  { buf := b, out := fun _ => 0, log := [] }

/-- A tagged body for the demonstration collaborator: tag table of size 4, a
session of three tags `3, 5, 1`, then six bit fields. -/
def demoTaggedStream : List Nat := [4, 3, 3, 5, 1, 6, 1, 17, 30, 1, 0]

/-- A tagged body with two tags `3, 5` and four bit fields. -/
def demoShortStream : List Nat := [4, 2, 3, 5, 6, 1, 17, 30]

/-- A tagged body whose bit fields carry more bits than their tags ask for: tag
table of size 4, a session of three tags `3, 5, 1`, then six numbers of which
only the low `3, 3, 5, 5, 1, 1` bits are the encoded values `6, 1, 17, 30, 1, 0`. -/
def demoMaskedStream : List Nat := [4, 3, 3, 5, 1, 14, 9, 49, 62, 3, 2]

/-- The same with two tags `3, 5` and four numbers. -/
def demoMaskedShortStream : List Nat := [4, 2, 3, 5, 14, 9, 49, 62]

/-- A tagged body cut short: two tags `3, 5`, one bit field, then the stream ends. -/
def demoTruncatedStream : List Nat := [4, 2, 3, 5, 6]

/-! ## Zig-zag remapping: properties -/

theorem wrapInt32_of_inRange (x : Int) (h1 : -2 ^ 31 ≤ x) (h2 : x ≤ 2 ^ 31 - 1) :
    wrapInt32 x = x := by
  unfold wrapInt32
  norm_num at h1 h2 ⊢
  omega

theorem ConvertSymbolToSignedInt_eq (v : Nat) (hv : v < 2 ^ 32) :
    ConvertSymbolToSignedInt v
      = if v % 2 = 0 then ((v / 2 : Nat) : Int) else -((v / 2 : Nat) : Int) - 1 := by
  have hv2 : v % 2 ^ 32 = v := Nat.mod_eq_of_lt hv
  have hd : (v / 2 : Nat) < 2 ^ 31 := by norm_num at hv ⊢; omega
  have hdi : ((v / 2 : Nat) : Int) < 2 ^ 31 := by exact_mod_cast hd
  have hnn : (0 : Int) ≤ ((v / 2 : Nat) : Int) := Int.ofNat_nonneg _
  unfold ConvertSymbolToSignedInt
  simp only [hv2, Nat.and_one_is_mod, Nat.shiftRight_one, Int.ofNat_eq_coe]
  have w1 : wrapInt32 ((v / 2 : Nat) : Int) = ((v / 2 : Nat) : Int) :=
    wrapInt32_of_inRange _ (by norm_num at hdi ⊢; omega) (by norm_num at hdi ⊢; omega)
  have w2 : wrapInt32 (-((v / 2 : Nat) : Int)) = -((v / 2 : Nat) : Int) :=
    wrapInt32_of_inRange _ (by norm_num at hdi ⊢; omega) (by norm_num at hdi ⊢; omega)
  have w3 : wrapInt32 (-((v / 2 : Nat) : Int) - 1) = -((v / 2 : Nat) : Int) - 1 :=
    wrapInt32_of_inRange _ (by norm_num at hdi ⊢; omega) (by norm_num at hdi ⊢; omega)
  rw [w1, w2, w3]
  by_cases h : v % 2 = 0
  · simp [h]
  · simp [h]

/-- C10: for every unsigned 32-bit `v`, `ConvertSymbolToSignedInt v` is `v >> 1`
when bit 0 of `v` is clear and `-(v >> 1) - 1` when it is set; the cast of
`v >> 1`, its negation and the decrement all stay inside the signed 32-bit range
(no overflow), so the result lies in `[-2^31, 2^31 - 1]`; the result is negative
exactly when `v` is odd; and `0, 1, 2, 3, 4` map to `0, -1, 1, -2, 2`. -/
theorem ConvertSymbolToSignedInt_spec (v : Nat) (hv : v < 2 ^ 32) :
    (v.testBit 0 = false → ConvertSymbolToSignedInt v = ((v >>> 1 : Nat) : Int)) ∧
    (v.testBit 0 = true → ConvertSymbolToSignedInt v = -((v >>> 1 : Nat) : Int) - 1) ∧
    (wrapInt32 ((v >>> 1 : Nat) : Int) = ((v >>> 1 : Nat) : Int) ∧
      wrapInt32 (-((v >>> 1 : Nat) : Int)) = -((v >>> 1 : Nat) : Int) ∧
      wrapInt32 (-((v >>> 1 : Nat) : Int) - 1) = -((v >>> 1 : Nat) : Int) - 1) ∧
    (-2 ^ 31 ≤ ConvertSymbolToSignedInt v ∧ ConvertSymbolToSignedInt v ≤ 2 ^ 31 - 1) ∧
    (ConvertSymbolToSignedInt v < 0 ↔ v % 2 = 1) ∧
    [0, 1, 2, 3, 4].map ConvertSymbolToSignedInt = [0, -1, 1, -2, 2] := by
  have hd : (v / 2 : Nat) < 2 ^ 31 := by norm_num at hv ⊢; omega
  have hdi : ((v / 2 : Nat) : Int) < 2 ^ 31 := by exact_mod_cast hd
  have hnn : (0 : Int) ≤ ((v / 2 : Nat) : Int) := Int.ofNat_nonneg _
  have he := ConvertSymbolToSignedInt_eq v hv
  simp only [Nat.shiftRight_one, Nat.testBit_zero]
  refine ⟨?_, ?_, ⟨?_, ?_, ?_⟩, ?_, ?_, ?_⟩
  · intro h
    have h0 : v % 2 = 0 := by
      have : ¬ v % 2 = 1 := by simpa using h
      omega
    rw [he, if_pos h0]
  · intro h
    have h1 : ¬ v % 2 = 0 := by
      have : v % 2 = 1 := by simpa using h
      omega
    rw [he, if_neg h1]
  · exact wrapInt32_of_inRange _ (by norm_num at hdi ⊢; omega) (by norm_num at hdi ⊢; omega)
  · exact wrapInt32_of_inRange _ (by norm_num at hdi ⊢; omega) (by norm_num at hdi ⊢; omega)
  · exact wrapInt32_of_inRange _ (by norm_num at hdi ⊢; omega) (by norm_num at hdi ⊢; omega)
  · rw [he]
    norm_num at hdi ⊢
    split <;> constructor <;> omega
  · rw [he]
    split <;> omega
  · decide

/-- Instance of C10 at `v = 2^32 - 1`, the largest unsigned 32-bit value: the
result is `-2^31`, the smallest signed 32-bit value. -/
theorem ConvertSymbolToSignedInt_spec_witness :
    (4294967295 : Nat) < 2 ^ 32 ∧ ConvertSymbolToSignedInt 4294967295 = -2147483648 := by
  have key := (ConvertSymbolToSignedInt_spec 4294967295 (by norm_num)).2.1 (by decide)
  exact ⟨by norm_num, by rw [key]; decide⟩

/-! ## Dispatcher: properties -/

/-- C6: with `num_values = 0` the dispatcher succeeds for every `num_components`
and every stream, and returns the state it was given: the stream and its cursor,
the output buffer and the record of calls are all unchanged (no byte is read, no
slot is written). -/
theorem DecodeSymbols_zero {β δ : Type} (C : Collab β δ) (fuel : Nat)
    (num_components : Int) (s : St β) :
    DecodeSymbols C fuel 0 num_components s = some (true, s) := by
  simp [DecodeSymbols]

/-- C7: with `num_values < 0` the dispatcher fails for every `num_components` and
every stream, and returns the state it was given: nothing is read from the stream
and no output slot is written. -/
theorem DecodeSymbols_negative {β δ : Type} (C : Collab β δ) (fuel : Nat)
    (num_values num_components : Int) (s : St β) (h : num_values < 0) :
    DecodeSymbols C fuel num_values num_components s = some (false, s) := by
  simp [DecodeSymbols, h]

/-- Instance of C7: `num_values = -1`, one component, a stream holding a valid raw body. -/
theorem DecodeSymbols_negative_witness :
    (-1 : Int) < 0 ∧
    DecodeSymbols demo 0 (-1) 1 (demoSt [1, 3, 4, 1, 7]) = some (false, demoSt [1, 3, 4, 1, 7]) :=
  ⟨by decide, DecodeSymbols_negative demo 0 (-1) 1 (demoSt [1, 3, 4, 1, 7]) (by decide)⟩

/-- C8: with `num_values > 0` and a selector byte `scheme ≥ 2`, the dispatcher
fails right after reading the selector: the only call recorded is the byte read
(neither decode path is entered) and the output buffer is unchanged. -/
theorem DecodeSymbols_invalid_scheme {β δ : Type} (C : Collab β δ) (fuel : Nat)
    (num_values num_components : Int) (s : St β) (scheme : Nat) (b : β)
    (h : 0 < num_values) (hb : C.decodeU8 s.buf = (some scheme, b)) (h2 : 2 ≤ scheme) :
    DecodeSymbols C fuel num_values num_components s
      = some (false, { buf := b, out := s.out,
                       log := s.log ++ [Event.readByte (some scheme)] }) := by
  have h0 : ¬ num_values < 0 := by omega
  have h1 : ¬ num_values = 0 := by omega
  have h3 : ¬ scheme = 0 := by omega
  have h4 : ¬ scheme = 1 := by omega
  simp [DecodeSymbols, h0, h1, hb, h3, h4, St.step]

/-- Instance of C8: first byte `2`, then bytes that would be a valid raw body. -/
theorem DecodeSymbols_invalid_scheme_witness :
    DecodeSymbols demo 5 3 1 (demoSt [2, 3, 4, 3, 7, 8, 9])
      = some (false, { buf := [3, 4, 3, 7, 8, 9], out := (demoSt [2, 3, 4, 3, 7, 8, 9]).out,
                       log := [] ++ [Event.readByte (some 2)] }) :=
  DecodeSymbols_invalid_scheme demo 5 3 1 (demoSt [2, 3, 4, 3, 7, 8, 9]) 2 [3, 4, 3, 7, 8, 9]
    (by decide) rfl (by decide)

/-- C1: for `num_values > 0` the dispatcher reads the selector and then is the
delegated path: it succeeds exactly when the selector byte can be read and either
the selector is 0 and the tagged path succeeds on the state just after the
selector, or the selector is 1 and the raw path succeeds there; with selector 0
its whole result (verdict, stream, output, calls) is that of
`DecodeTaggedSymbols`, with selector 1 that of `DecodeRawSymbols`; and when the
selector cannot be read the call fails. -/
theorem DecodeSymbols_dispatch {β δ : Type} (C : Collab β δ) (fuel : Nat)
    (num_values num_components : Int) (s : St β) (h : 0 < num_values) :
    ((∃ s1, DecodeSymbols C fuel num_values num_components s = some (true, s1)) ↔
      ∃ scheme b, C.decodeU8 s.buf = (some scheme, b) ∧
        ((scheme = 0 ∧ ∃ s1, DecodeTaggedSymbols C fuel num_values num_components
            (s.step b (Event.readByte (some scheme))) = some (true, s1)) ∨
         (scheme = 1 ∧ ∃ s1, DecodeRawSymbols C num_values
            (s.step b (Event.readByte (some scheme))) = (true, s1)))) ∧
    (∀ b, C.decodeU8 s.buf = (some 0, b) →
      DecodeSymbols C fuel num_values num_components s
        = DecodeTaggedSymbols C fuel num_values num_components
            (s.step b (Event.readByte (some 0)))) ∧
    (∀ b, C.decodeU8 s.buf = (some 1, b) →
      DecodeSymbols C fuel num_values num_components s
        = some (DecodeRawSymbols C num_values (s.step b (Event.readByte (some 1))))) ∧
    (∀ b, C.decodeU8 s.buf = (none, b) →
      DecodeSymbols C fuel num_values num_components s
        = some (false, s.step b (Event.readByte none))) := by
  have h0 : ¬ num_values < 0 := by omega
  have h1 : ¬ num_values = 0 := by omega
  refine ⟨?_, ?_, ?_, ?_⟩
  · rcases hb : C.decodeU8 s.buf with ⟨_ | scheme, b⟩
    · simp [DecodeSymbols, h0, h1, hb]
    · by_cases e0 : scheme = 0
      · subst e0
        constructor
        · rintro ⟨s1, hs1⟩
          refine ⟨0, b, rfl, Or.inl ⟨rfl, s1, ?_⟩⟩
          simpa [DecodeSymbols, h0, h1, hb] using hs1
        · rintro ⟨scheme, b1, hsb, hcase⟩
          obtain ⟨rfl, rfl⟩ : 0 = scheme ∧ b = b1 := by simpa using hsb
          rcases hcase with ⟨_, s1, hs1⟩ | ⟨e, _⟩
          · exact ⟨s1, by simp [DecodeSymbols, h0, h1, hb, hs1]⟩
          · exact absurd e (by decide)
      · by_cases e1 : scheme = 1
        · subst e1
          constructor
          · rintro ⟨s1, hs1⟩
            refine ⟨1, b, rfl, Or.inr ⟨rfl, s1, ?_⟩⟩
            simpa [DecodeSymbols, h0, h1, hb] using hs1
          · rintro ⟨scheme, b1, hsb, hcase⟩
            obtain ⟨rfl, rfl⟩ : 1 = scheme ∧ b = b1 := by simpa using hsb
            rcases hcase with ⟨e, _⟩ | ⟨_, s1, hs1⟩
            · exact absurd e (by decide)
            · exact ⟨s1, by simp [DecodeSymbols, h0, h1, hb, hs1]⟩
        · constructor
          · rintro ⟨s1, hs1⟩
            simp [DecodeSymbols, h0, h1, hb, e0, e1] at hs1
          · rintro ⟨scheme1, b1, hsb, hcase⟩
            obtain ⟨rfl, rfl⟩ : scheme = scheme1 ∧ b = b1 := by simpa using hsb
            rcases hcase with ⟨e, _⟩ | ⟨e, _⟩
            · exact absurd e e0
            · exact absurd e e1
  · intro b hb
    simp [DecodeSymbols, h0, h1, hb]
  · intro b hb
    simp [DecodeSymbols, h0, h1, hb]
  · intro b hb
    simp [DecodeSymbols, h0, h1, hb]

/-- Instance of C1: three values, and a stream with no byte left; the call fails. -/
theorem DecodeSymbols_dispatch_witness :
    (0 : Int) < 3 ∧
    DecodeSymbols demo 5 3 1 (demoSt [])
      = some (false, (demoSt []).step [] (Event.readByte none)) :=
  ⟨by decide, (DecodeSymbols_dispatch demo 5 3 1 (demoSt []) (by decide)).2.2.2 [] rfl⟩

/-! ## Raw path: properties -/

/-- C5: once the `max_bit_length` byte `w` has been read, `DecodeRawSymbols`
fails for every `w` outside `[1, 18]` with nothing recorded after the byte read
(no decoder is created, the stream is where the byte read left it, the output
buffer is unchanged), and for every `w` in `[1, 18]` its result is that of
`DecodeRawSymbolsInternal` with a decoder of width exactly `w`; when the byte
cannot be read the call fails. -/
theorem DecodeRawSymbols_width {β δ : Type} (C : Collab β δ) (num_values : Int) (s : St β) :
    (∀ w b, C.decodeU8 s.buf = (some w, b) → (w < 1 ∨ 18 < w) →
      DecodeRawSymbols C num_values s
        = (false, { buf := b, out := s.out, log := s.log ++ [Event.readByte (some w)] })) ∧
    (∀ w b, C.decodeU8 s.buf = (some w, b) → 1 ≤ w → w ≤ 18 →
      DecodeRawSymbols C num_values s
        = DecodeRawSymbolsInternal C w num_values
            { buf := b, out := s.out, log := s.log ++ [Event.readByte (some w)] }) ∧
    (∀ b, C.decodeU8 s.buf = (none, b) →
      DecodeRawSymbols C num_values s
        = (false, { buf := b, out := s.out, log := s.log ++ [Event.readByte none] })) := by
  refine ⟨?_, ?_, ?_⟩
  · intro w b hb hw
    simp only [DecodeRawSymbols, hb, St.step]
    split <;> first | omega | rfl
  · intro w b hb h1 h18
    simp only [DecodeRawSymbols, hb, St.step]
    interval_cases w <;> rfl
  · intro b hb
    simp only [DecodeRawSymbols, hb, St.step]

/-- Instance of C5: `max_bit_length = 19` is rejected, the rest of the stream untouched. -/
theorem DecodeRawSymbols_width_witness :
    DecodeRawSymbols demo 2 (demoSt [19, 4, 2, 7, 8])
      = (false, { buf := [4, 2, 7, 8], out := (demoSt [19, 4, 2, 7, 8]).out,
                  log := [] ++ [Event.readByte (some 19)] }) :=
  (DecodeRawSymbols_width demo 2 (demoSt [19, 4, 2, 7, 8])).1 19 [4, 2, 7, 8] rfl
    (Or.inr (by decide))

/-- C9: with `num_values > 0` and a decoder that reports `num_symbols() = 0`,
both paths fail with no symbol decoded and no output slot written. The tagged
path has by then created the decoder and begun the session and has not entered
bit-oriented mode; the raw path has created the decoder and has not begun the
session. -/
theorem zero_symbols_rejected {β δ : Type} (C : Collab β δ) (num_values : Int) (s : St β)
    (h : 0 < num_values) :
    (∀ fuel num_components d0 b0 d1 b1,
      C.create 5 s.buf = (true, d0, b0) → C.startDecoding d0 b0 = (true, d1, b1) →
      C.numSymbols d1 = 0 →
      DecodeTaggedSymbols C fuel num_values num_components s
        = some (false, { buf := b1, out := s.out,
                         log := s.log ++ [Event.create 5 true, Event.startDecoding true] })) ∧
    (∀ w d0 b0, C.create w s.buf = (true, d0, b0) → C.numSymbols d0 = 0 →
      DecodeRawSymbolsInternal C w num_values s
        = (false, { buf := b0, out := s.out, log := s.log ++ [Event.create w true] })) := by
  constructor
  · intro fuel nc d0 b0 d1 b1 hc hs hn
    simp [DecodeTaggedSymbols, hc, hs, hn, h, St.step]
  · intro w d0 b0 hc hn
    simp [DecodeRawSymbolsInternal, hc, hn, h, St.step]

/-- Instance of C9 on the tagged path: a tag table of size 0 and an empty session. -/
theorem zero_symbols_rejected_witness :
    (0 : Int) < 4 ∧
    DecodeTaggedSymbols demo 9 4 2 (demoSt [0, 0, 5, 6])
      = some (false, { buf := [5, 6], out := (demoSt [0, 0, 5, 6]).out,
                       log := [] ++ [Event.create 5 true, Event.startDecoding true] }) :=
  ⟨by decide,
   (zero_symbols_rejected demo 4 (demoSt [0, 0, 5, 6]) (by decide)).1 9 2 ⟨0, []⟩ [0, 5, 6]
     ⟨0, []⟩ [5, 6] rfl rfl rfl⟩

theorem nthSymbol_succ {β δ : Type} (C : Collab β δ) (d : δ) (k : Nat) :
    nthSymbol C d (k + 1) = nthSymbol C (C.decodeSymbol d).2 k := by
  simp [nthSymbol, decAfter, Function.iterate_succ_apply]

theorem countP_flatMap_range {α : Type} (p : α → Bool) (F : Nat → List α) (c : Nat)
    (h : ∀ g, (F g).countP p = c) (n : Nat) :
    ((List.range n).flatMap F).countP p = n * c := by
  induction n with
  | zero => simp
  | succ n ih =>
    rw [List.range_succ, List.flatMap_append, List.countP_append, ih]
    simp [h, Nat.succ_mul]

theorem rawLoop_eq {β δ : Type} (C : Collab β δ) :
    ∀ (n i : Nat) (d : δ) (s : St β),
      rawLoop C n i d s
        = (decAfter C d n,
           { buf := s.buf,
             out := fun x => if i ≤ x ∧ x < i + n then nthSymbol C d (x - i) else s.out x,
             log := s.log ++ (List.range n).flatMap (fun k =>
               [Event.decodeSymbol (nthSymbol C d k), Event.write (i + k) (nthSymbol C d k)]) })
  | 0, i, d, s => by
    have hout : (fun x => if i ≤ x ∧ x < i + 0 then nthSymbol C d (x - i) else s.out x) = s.out := by
      funext x
      have hx : ¬ (i ≤ x ∧ x < i + 0) := by omega
      rw [if_neg hx]
    rw [hout]
    simp [rawLoop, decAfter]
  | n + 1, i, d, s => by
    rw [rawLoop, rawLoop_eq C n (i + 1)]
    have hd : decAfter C (C.decodeSymbol d).2 n = decAfter C d (n + 1) := by
      simp [decAfter, Function.iterate_succ_apply]
    have h0 : nthSymbol C d 0 = (C.decodeSymbol d).1 := by simp [nthSymbol, decAfter]
    rw [hd, List.range_succ_eq_map, List.flatMap_cons, List.flatMap_map]
    simp only [St.step, St.store, nthSymbol_succ, h0, List.append_assoc, List.cons_append,
      List.nil_append, Nat.succ_eq_add_one, Nat.add_zero]
    refine Prod.ext rfl ?_
    simp only
    congr 1
    · funext x
      by_cases hx : x = i
      · subst hx
        simp [h0]
      · rw [Function.update_noteq hx]
        by_cases h1 : i + 1 ≤ x ∧ x < i + 1 + n
        · have h2 : i ≤ x ∧ x < i + (n + 1) := by omega
          have h3 : x - i = (x - (i + 1)) + 1 := by omega
          rw [if_pos h1, if_pos h2, h3, nthSymbol_succ]
        · have h2 : ¬ (i ≤ x ∧ x < i + (n + 1)) := by omega
          rw [if_neg h1, if_neg h2]
    · simp [Nat.add_assoc, Nat.add_comm 1]

/-- C4: a successful run of `DecodeRawSymbolsInternal` creates the decoder, begins
the session once, then makes exactly `num_values` calls of `DecodeSymbol`, each
followed by the store of its result at the index of the call, then ends the
session once; afterwards `out_values[i]` holds the result of call `i` for every
`i` in `0..num_values-1` and every slot at an index `≥ num_values` is unchanged. -/
theorem DecodeRawSymbolsInternal_success {β δ : Type} (C : Collab β δ) (w : Nat)
    (num_values : Int) (s : St β)
    (hs : (DecodeRawSymbolsInternal C w num_values s).1 = true) :
    ∃ d0 b0 d1 b1,
      C.create w s.buf = (true, d0, b0) ∧ C.startDecoding d0 b0 = (true, d1, b1) ∧
      (DecodeRawSymbolsInternal C w num_values s).2.log
        = s.log ++ [Event.create w true, Event.startDecoding true]
            ++ rawEvents num_values.toNat (nthSymbol C d1) ++ [Event.endDecoding] ∧
      (∀ i : Nat, (i : Int) < num_values →
        (DecodeRawSymbolsInternal C w num_values s).2.out i = nthSymbol C d1 i) ∧
      (∀ i : Nat, num_values ≤ (i : Int) →
        (DecodeRawSymbolsInternal C w num_values s).2.out i = s.out i) ∧
      (DecodeRawSymbolsInternal C w num_values s).2.log.countP Event.isDecodeSymbol
        = s.log.countP Event.isDecodeSymbol + num_values.toNat ∧
      (DecodeRawSymbolsInternal C w num_values s).2.log.countP Event.isWrite
        = s.log.countP Event.isWrite + num_values.toNat := by
  rcases hc : C.create w s.buf with ⟨_ | _, d0, b0⟩
  · simp [DecodeRawSymbolsInternal, hc] at hs
  by_cases hn : num_values > 0 ∧ C.numSymbols d0 = 0
  · simp [DecodeRawSymbolsInternal, hc, hn] at hs
  rcases hst : C.startDecoding d0 b0 with ⟨_ | _, d1, b1⟩
  · simp [DecodeRawSymbolsInternal, hc, hn, hst] at hs
  refine ⟨d0, b0, d1, b1, rfl, hst, ?_⟩
  have hrun : (DecodeRawSymbolsInternal C w num_values s).2
      = { buf := b1,
          out := fun x => if 0 ≤ x ∧ x < 0 + num_values.toNat
            then nthSymbol C d1 (x - 0) else s.out x,
          log := (s.log ++ [Event.create w true] ++ [Event.startDecoding true])
            ++ rawEvents num_values.toNat (nthSymbol C d1) ++ [Event.endDecoding] } := by
    simp only [DecodeRawSymbolsInternal, hc, hn, hst, if_false, rawLoop_eq, St.step, rawEvents,
      Nat.zero_add]
  rw [hrun]
  have hcd : ∀ g, List.countP Event.isDecodeSymbol
      [Event.decodeSymbol (nthSymbol C d1 g), Event.write g (nthSymbol C d1 g)] = 1 := by
    intro g
    simp [List.countP_cons, Event.isDecodeSymbol]
  have hcw : ∀ g, List.countP Event.isWrite
      [Event.decodeSymbol (nthSymbol C d1 g), Event.write g (nthSymbol C d1 g)] = 1 := by
    intro g
    simp [List.countP_cons, Event.isWrite]
  refine ⟨by simp, ?_, ?_, ?_, ?_⟩
  · intro i hi
    have h1 : 0 ≤ i ∧ i < 0 + num_values.toNat := by omega
    simp only [if_pos h1, Nat.sub_zero]
  · intro i hi
    have h1 : ¬ (0 ≤ i ∧ i < 0 + num_values.toNat) := by omega
    simp only [if_neg h1]
  · simp only [List.countP_append, rawEvents,
      countP_flatMap_range Event.isDecodeSymbol _ 1 hcd]
    simp [List.countP_cons, Event.isDecodeSymbol]
  · simp only [List.countP_append, rawEvents,
      countP_flatMap_range Event.isWrite _ 1 hcw]
    simp [List.countP_cons, Event.isWrite]

/-- Instance of C4: width 3, two values, stream `[table size 4, session of 2 symbols 7 8]`. -/
theorem DecodeRawSymbolsInternal_success_witness :
    (DecodeRawSymbolsInternal demo 3 2 (demoSt [4, 2, 7, 8])).1 = true ∧
    (DecodeRawSymbolsInternal demo 3 2 (demoSt [4, 2, 7, 8])).2.log
      = [Event.create 3 true, Event.startDecoding true, Event.decodeSymbol 7, Event.write 0 7,
         Event.decodeSymbol 8, Event.write 1 8, Event.endDecoding] ∧
    (∃ d0 b0 d1 b1,
      demo.create 3 (demoSt [4, 2, 7, 8]).buf = (true, d0, b0) ∧
      demo.startDecoding d0 b0 = (true, d1, b1) ∧
      (DecodeRawSymbolsInternal demo 3 2 (demoSt [4, 2, 7, 8])).2.log
        = (demoSt [4, 2, 7, 8]).log ++ [Event.create 3 true, Event.startDecoding true]
            ++ rawEvents (2 : Int).toNat (nthSymbol demo d1) ++ [Event.endDecoding] ∧
      (∀ i : Nat, (i : Int) < 2 →
        (DecodeRawSymbolsInternal demo 3 2 (demoSt [4, 2, 7, 8])).2.out i = nthSymbol demo d1 i) ∧
      (∀ i : Nat, (2 : Int) ≤ (i : Int) →
        (DecodeRawSymbolsInternal demo 3 2 (demoSt [4, 2, 7, 8])).2.out i
          = (demoSt [4, 2, 7, 8]).out i) ∧
      (DecodeRawSymbolsInternal demo 3 2 (demoSt [4, 2, 7, 8])).2.log.countP Event.isDecodeSymbol
        = (demoSt [4, 2, 7, 8]).log.countP Event.isDecodeSymbol + (2 : Int).toNat ∧
      (DecodeRawSymbolsInternal demo 3 2 (demoSt [4, 2, 7, 8])).2.log.countP Event.isWrite
        = (demoSt [4, 2, 7, 8]).log.countP Event.isWrite + (2 : Int).toNat) :=
  ⟨by decide, by decide,
   DecodeRawSymbolsInternal_success demo 3 2 (demoSt [4, 2, 7, 8]) (by decide)⟩

/-! ## Tagged path: properties -/

theorem numGroups_of_nonpos (x nc : Int) (hx : x ≤ 0) (hc : 1 ≤ nc) : numGroups x nc = 0 := by
  have h1 : (x + nc - 1) / nc < 1 := Int.ediv_lt_of_lt_mul (by omega) (by omega)
  unfold numGroups
  omega

theorem numGroups_of_pos (x nc : Int) (hx : 0 < x) (hc : 1 ≤ nc) :
    numGroups x nc = numGroups (x - nc) nc + 1 := by
  have h1 : (x + nc - 1) / nc = (x - nc + nc - 1) / nc + 1 := by
    have e : x + nc - 1 = (x - nc + nc - 1) + 1 * nc := by ring
    rw [e, Int.add_mul_ediv_right _ _ (by omega : nc ≠ 0)]
  have h2 : 0 ≤ (x - nc + nc - 1) / nc := Int.ediv_nonneg (by omega) (by omega)
  unfold numGroups
  rw [h1]
  omega

theorem groupEvents_congr (t n base : Nat) (val val1 : Nat → Nat)
    (h : ∀ x, base ≤ x → x < base + n → val x = val1 x) :
    groupEvents t n base val = groupEvents t n base val1 := by
  unfold groupEvents
  congr 1
  apply List.flatMap_congr
  intro j hj
  have hj1 : j < n := List.mem_range.mp hj
  rw [h (base + j) (by omega) (by omega)]

theorem componentLoop_success {β δ : Type} (C : Collab β δ) (t : Nat) :
    ∀ (n vid : Nat) (s : St β) (vid1 : Nat) (s1 : St β),
      componentLoop C t n vid s = (true, vid1, s1) →
      vid1 = vid + n ∧
      s1.log = s.log ++ (List.range n).flatMap (fun j =>
        [Event.readBits t (some (s1.out (vid + j))), Event.write (vid + j) (s1.out (vid + j))]) ∧
      ∀ x, (x < vid ∨ vid + n ≤ x) → s1.out x = s.out x
  | 0, vid, s, vid1, s1, h => by
    simp only [componentLoop, Prod.mk.injEq, true_and] at h
    obtain ⟨rfl, rfl⟩ := h
    simp
  | n + 1, vid, s, vid1, s1, h => by
    rw [componentLoop] at h
    rcases hr : C.decodeLSB32 t s.buf with ⟨_ | val, b⟩
    · simp [hr] at h
    · simp only [hr] at h
      obtain ⟨h1, h2, h3⟩ := componentLoop_success C t n (vid + 1) _ vid1 s1 h
      have hv : s1.out vid = val := by
        rw [h3 vid (Or.inl (by omega))]
        simp [St.step, St.store]
      refine ⟨by omega, ?_, ?_⟩
      · rw [h2, List.range_succ_eq_map, List.flatMap_cons, List.flatMap_map]
        simp only [St.step, St.store, hv, List.append_assoc, List.cons_append,
          List.nil_append, Nat.succ_eq_add_one, Nat.add_zero]
        simp [Nat.add_assoc, Nat.add_comm 1]
      · intro x hx
        rw [h3 x (by omega)]
        have hne : x ≠ vid := by omega
        simp [St.step, St.store, Function.update_noteq hne]

theorem taggedGroup_success {β δ : Type} (C : Collab β δ) (nc : Int) (L L1 : TagLoop β δ)
    (h : taggedGroup C nc L = (true, L1)) :
    L1.i = L.i + nc ∧ L1.value_id = L.value_id + nc.toNat ∧
    L1.dec = (C.decodeSymbol L.dec).2 ∧
    L1.st.log = L.st.log ++ groupEvents (nthSymbol C L.dec 0) nc.toNat L.value_id L1.st.out ∧
    ∀ x, (x < L.value_id ∨ L.value_id + nc.toNat ≤ x) → L1.st.out x = L.st.out x := by
  unfold taggedGroup at h
  simp only at h
  rcases hcl : componentLoop C (C.decodeSymbol L.dec).1 nc.toNat L.value_id
      (L.st.step L.st.buf (Event.decodeSymbol (C.decodeSymbol L.dec).1)) with ⟨_ | _, vid, s1⟩
  · simp [hcl] at h
  · simp only [hcl, Prod.mk.injEq, true_and] at h
    subst h
    obtain ⟨h1, h2, h3⟩ := componentLoop_success C _ _ _ _ _ _ hcl
    have h0 : nthSymbol C L.dec 0 = (C.decodeSymbol L.dec).1 := by simp [nthSymbol, decAfter]
    refine ⟨rfl, h1, rfl, ?_, ?_⟩
    · simp only [h2, groupEvents, h0, St.step, List.append_assoc, List.cons_append,
        List.nil_append]
    · intro x hx
      rw [h3 x hx]
      simp [St.step]

theorem taggedLoop_success {β δ : Type} (C : Collab β δ) (nv nc : Int) (hc : 1 ≤ nc) :
    ∀ (fuel : Nat) (L L1 : TagLoop β δ),
      taggedLoop C nv nc fuel L = some (true, L1) →
      L1.st.log = L.st.log ++ (List.range (numGroups (nv - L.i) nc)).flatMap (fun g =>
        groupEvents (nthSymbol C L.dec g) nc.toNat (L.value_id + g * nc.toNat) L1.st.out) ∧
      (∀ x, (x < L.value_id ∨ L.value_id + numGroups (nv - L.i) nc * nc.toNat ≤ x) →
        L1.st.out x = L.st.out x)
  | 0, L, L1, h => by
    by_cases hi : L.i < nv
    · simp [taggedLoop, hi] at h
    · simp only [taggedLoop, hi, if_false, Option.some.injEq, Prod.mk.injEq, true_and] at h
      subst h
      rw [numGroups_of_nonpos (nv - L.i) nc (by omega) hc]
      simp
  | fuel + 1, L, L1, h => by
    by_cases hi : L.i < nv
    · rw [taggedLoop, if_pos hi] at h
      rcases hg : taggedGroup C nc L with ⟨_ | _, L0⟩
      · simp [hg] at h
      · simp only [hg] at h
        obtain ⟨g1, g2, g3, g4, g5⟩ := taggedGroup_success C nc L L0 hg
        obtain ⟨r1, r2⟩ := taggedLoop_success C nv nc hc fuel L0 L1 h
        have hG : numGroups (nv - L.i) nc = numGroups (nv - L0.i) nc + 1 := by
          rw [numGroups_of_pos (nv - L.i) nc (by omega) hc, g1]
          congr 2
          ring
        rw [hG]
        constructor
        · rw [r1, g4, List.range_succ_eq_map, List.flatMap_cons, List.flatMap_map,
            List.append_assoc]
          congr 2
          · simp only [Nat.zero_mul, Nat.add_zero]
            apply groupEvents_congr
            intro x hx1 hx2
            exact (r2 x (Or.inl (by omega))).symm
          · apply List.flatMap_congr
            intro g _
            simp only [Function.comp, nthSymbol_succ, g3, g2, Nat.succ_eq_add_one]
            congr 1
            rw [Nat.add_mul]
            omega
        · intro x hx
          have e : (numGroups (nv - L0.i) nc + 1) * nc.toNat
              = numGroups (nv - L0.i) nc * nc.toNat + nc.toNat := by
            rw [Nat.add_mul, Nat.one_mul]
          rw [e] at hx
          rw [r2 x (by omega), g5 x (by omega)]
    · simp only [taggedLoop, hi, if_false, Option.some.injEq, Prod.mk.injEq, true_and] at h
      subst h
      rw [numGroups_of_nonpos (nv - L.i) nc (by omega) hc]
      simp

theorem taggedLoop_terminates {β δ : Type} (C : Collab β δ) (nv nc : Int) (hc : 1 ≤ nc) :
    ∀ (fuel : Nat) (L : TagLoop β δ), numGroups (nv - L.i) nc ≤ fuel →
      ∃ r, taggedLoop C nv nc fuel L = some r
  | 0, L, h => by
    by_cases hi : L.i < nv
    · rw [numGroups_of_pos (nv - L.i) nc (by omega) hc] at h
      omega
    · exact ⟨(true, L), by simp [taggedLoop, hi]⟩
  | fuel + 1, L, h => by
    by_cases hi : L.i < nv
    · rw [taggedLoop, if_pos hi]
      rcases hg : taggedGroup C nc L with ⟨_ | _, L0⟩
      · exact ⟨_, rfl⟩
      · obtain ⟨g1, _⟩ := taggedGroup_success C nc L L0 hg
        apply taggedLoop_terminates C nv nc hc fuel L0
        rw [numGroups_of_pos (nv - L.i) nc (by omega) hc] at h
        have e : nv - L0.i = nv - L.i - nc := by rw [g1]; ring
        rw [e]
        omega
    · exact ⟨(true, L), by simp [taggedLoop, hi]⟩

theorem DecodeTaggedSymbols_success_shape {β δ : Type} (C : Collab β δ) (fuel : Nat)
    (nv nc : Int) (s s1 : St β) (hc : 1 ≤ nc)
    (h : DecodeTaggedSymbols C fuel nv nc s = some (true, s1)) :
    ∃ d0 b0 d1 b1,
      C.create 5 s.buf = (true, d0, b0) ∧ C.startDecoding d0 b0 = (true, d1, b1) ∧
      s1.log = s.log ++ [Event.create 5 true, Event.startDecoding true, Event.startBitDecoding]
        ++ (List.range (numGroups nv nc)).flatMap (fun g =>
              groupEvents (nthSymbol C d1 g) nc.toNat (g * nc.toNat) s1.out)
        ++ [Event.endDecoding, Event.endBitDecoding] ∧
      ∀ x, numGroups nv nc * nc.toNat ≤ x → s1.out x = s.out x := by
  rcases hcr : C.create 5 s.buf with ⟨_ | _, d0, b0⟩
  · simp [DecodeTaggedSymbols, hcr] at h
  rcases hst : C.startDecoding d0 b0 with ⟨_ | _, d1, b1⟩
  · simp [DecodeTaggedSymbols, hcr, hst] at h
  by_cases hn : nv > 0 ∧ C.numSymbols d1 = 0
  · simp [DecodeTaggedSymbols, hcr, hst, hn] at h
  simp only [DecodeTaggedSymbols, hcr, hst, hn, if_false] at h
  rcases hl : taggedLoop C nv nc fuel
      { i := 0, value_id := 0, dec := d1,
        st := ((s.step b0 (Event.create 5 true)).step b1 (Event.startDecoding true)).step
          (C.startBitDecoding b1) Event.startBitDecoding } with _ | ⟨_ | _, L⟩
  · simp [hl] at h
  · simp [hl] at h
  · simp only [hl, Option.some.injEq, Prod.mk.injEq, true_and] at h
    obtain ⟨r1, r2⟩ := taggedLoop_success C nv nc hc fuel _ L hl
    simp only [Int.sub_zero, Nat.zero_add, St.step] at r1 r2
    have hout : s1.out = L.st.out := by rw [← h]; rfl
    have hlog : s1.log = L.st.log ++ [Event.endDecoding] ++ [Event.endBitDecoding] := by
      rw [← h]; rfl
    refine ⟨d0, b0, d1, b1, rfl, hst, ?_, ?_⟩
    · rw [hlog, r1, hout]
      simp
    · intro x hx
      rw [hout, r2 x (Or.inr hx)]

theorem DecodeTaggedSymbols_terminates {β δ : Type} (C : Collab β δ) (fuel : Nat)
    (nv nc : Int) (s : St β) (hc : 1 ≤ nc) (hf : numGroups nv nc ≤ fuel) :
    ∃ r, DecodeTaggedSymbols C fuel nv nc s = some r := by
  rcases hcr : C.create 5 s.buf with ⟨_ | _, d0, b0⟩
  · simp [DecodeTaggedSymbols, hcr]
  rcases hst : C.startDecoding d0 b0 with ⟨_ | _, d1, b1⟩
  · simp [DecodeTaggedSymbols, hcr, hst]
  by_cases hn : nv > 0 ∧ C.numSymbols d1 = 0
  · simp [DecodeTaggedSymbols, hcr, hst, hn]
  obtain ⟨r, hr⟩ := taggedLoop_terminates C nv nc hc fuel
    { i := 0, value_id := 0, dec := d1,
      st := ((s.step b0 (Event.create 5 true)).step b1 (Event.startDecoding true)).step
        (C.startBitDecoding b1) Event.startBitDecoding } (by simpa using hf)
  simp only [DecodeTaggedSymbols, hcr, hst, hn, if_false, hr]
  rcases r with ⟨_ | _, L⟩
  · exact ⟨_, rfl⟩
  · exact ⟨_, rfl⟩

theorem writtenIndices_append (l1 l2 : List Event) :
    writtenIndices (l1 ++ l2) = writtenIndices l1 ++ writtenIndices l2 := by
  simp [writtenIndices, List.filterMap_append]

theorem writtenIndices_groupEvents (t n base : Nat) (val : Nat → Nat) :
    writtenIndices (groupEvents t n base val) = (List.range n).map (fun j => base + j) := by
  have hin : ∀ m, writtenIndices ((List.range m).flatMap (fun j =>
      [Event.readBits t (some (val (base + j))), Event.write (base + j) (val (base + j))]))
      = (List.range m).map (fun j => base + j) := by
    intro m
    induction m with
    | zero => simp [writtenIndices]
    | succ m ih =>
      rw [List.range_succ, List.flatMap_append, writtenIndices_append, ih, List.map_append]
      simp [writtenIndices]
  have hc : groupEvents t n base val = [Event.decodeSymbol t] ++ (List.range n).flatMap (fun j =>
      [Event.readBits t (some (val (base + j))), Event.write (base + j) (val (base + j))]) := rfl
  rw [hc, writtenIndices_append, hin]
  simp [writtenIndices]

theorem writtenIndices_groups (tag : Nat → Nat) (n : Nat) (val : Nat → Nat) (G : Nat) :
    writtenIndices ((List.range G).flatMap (fun g => groupEvents (tag g) n (g * n) val))
      = List.range (G * n) := by
  induction G with
  | zero => simp [writtenIndices]
  | succ G ih =>
    rw [List.range_succ, List.flatMap_append, writtenIndices_append, ih, Nat.succ_mul,
      List.range_add]
    simp [writtenIndices_groupEvents]

theorem countP_groupEvents (t n base : Nat) (val : Nat → Nat) :
    (groupEvents t n base val).countP Event.isDecodeSymbol = 1 ∧
    (groupEvents t n base val).countP Event.isReadBits = n ∧
    (groupEvents t n base val).countP Event.isWrite = n := by
  unfold groupEvents
  refine ⟨?_, ?_, ?_⟩
  · rw [List.countP_cons, countP_flatMap_range Event.isDecodeSymbol _ 0
      (by intro g; simp [List.countP_cons, Event.isDecodeSymbol])]
    simp [Event.isDecodeSymbol]
  · rw [List.countP_cons, countP_flatMap_range Event.isReadBits _ 1
      (by intro g; simp [List.countP_cons, Event.isReadBits])]
    simp [Event.isReadBits]
  · rw [List.countP_cons, countP_flatMap_range Event.isWrite _ 1
      (by intro g; simp [List.countP_cons, Event.isWrite])]
    simp [Event.isWrite]

theorem numGroups_mul_ge (nv nc : Int) (hc : 1 ≤ nc) :
    nv ≤ ((numGroups nv nc * nc.toNat : Nat) : Int) := by
  have h1 : nv + nc - 1 < ((nv + nc - 1) / nc + 1) * nc :=
    Int.lt_ediv_add_one_mul_self _ (by omega)
  have hnc : ((nc.toNat : Nat) : Int) = nc := Int.toNat_of_nonneg (by omega)
  by_cases hq : 0 ≤ (nv + nc - 1) / nc
  · have hG : ((numGroups nv nc : Nat) : Int) = (nv + nc - 1) / nc := by
      unfold numGroups
      exact Int.toNat_of_nonneg hq
    push_cast
    rw [hG, hnc]
    nlinarith
  · have hG : numGroups nv nc = 0 := by
      unfold numGroups
      omega
    have h2 : ((nv + nc - 1) / nc + 1) * nc ≤ 0 :=
      Int.mul_nonpos_of_nonpos_of_nonneg (by omega) (by omega)
    rw [hG]
    simp
    omega

theorem numGroups_mul_eq_iff (nv nc : Int) (hv : 0 ≤ nv) (hc : 1 ≤ nc) :
    ((numGroups nv nc * nc.toNat : Nat) : Int) = nv ↔ nc ∣ nv := by
  have hnc : ((nc.toNat : Nat) : Int) = nc := Int.toNat_of_nonneg (by omega)
  have hq : 0 ≤ (nv + nc - 1) / nc := Int.ediv_nonneg (by omega) (by omega)
  have hG : ((numGroups nv nc : Nat) : Int) = (nv + nc - 1) / nc := by
    unfold numGroups
    exact Int.toNat_of_nonneg hq
  push_cast
  rw [hG, hnc]
  constructor
  · intro h
    exact ⟨(nv + nc - 1) / nc, by rw [Int.mul_comm]; exact h.symm⟩
  · rintro ⟨k, rfl⟩
    have e : nc * k + nc - 1 = (nc - 1) + k * nc := by ring
    rw [e, Int.add_mul_ediv_right _ _ (by omega : nc ≠ 0),
      Int.ediv_eq_zero_of_lt (by omega) (by omega)]
    ring

theorem numGroups_mul_lt (nv nc : Int) (hv : 0 ≤ nv) (hc : 1 ≤ nc) :
    ((numGroups nv nc * nc.toNat : Nat) : Int) < nv + nc := by
  have hnc : ((nc.toNat : Nat) : Int) = nc := Int.toNat_of_nonneg (by omega)
  have hq : 0 ≤ (nv + nc - 1) / nc := Int.ediv_nonneg (by omega) (by omega)
  have hG : ((numGroups nv nc : Nat) : Int) = (nv + nc - 1) / nc := by
    unfold numGroups
    exact Int.toNat_of_nonneg hq
  have h1 : (nv + nc - 1) / nc * nc ≤ nv + nc - 1 := Int.ediv_mul_le _ (by omega)
  push_cast
  rw [hG, hnc]
  omega

theorem DecodeTaggedSymbols_success_counts {β δ : Type} (C : Collab β δ) (fuel : Nat)
    (nv nc : Int) (s s1 : St β) (hc : 1 ≤ nc)
    (h : DecodeTaggedSymbols C fuel nv nc s = some (true, s1)) :
    s1.log.countP Event.isDecodeSymbol = s.log.countP Event.isDecodeSymbol + numGroups nv nc ∧
    s1.log.countP Event.isReadBits
      = s.log.countP Event.isReadBits + numGroups nv nc * nc.toNat ∧
    s1.log.countP Event.isWrite = s.log.countP Event.isWrite + numGroups nv nc * nc.toNat ∧
    writtenIndices s1.log = writtenIndices s.log ++ List.range (numGroups nv nc * nc.toNat) := by
  obtain ⟨d0, b0, d1, b1, _, _, hlog, _⟩ := DecodeTaggedSymbols_success_shape C fuel nv nc s s1 hc h
  rw [hlog]
  refine ⟨?_, ?_, ?_, ?_⟩
  · simp only [List.countP_append, countP_flatMap_range Event.isDecodeSymbol _ 1
      (fun g => (countP_groupEvents _ _ _ _).1)]
    simp [List.countP_cons, Event.isDecodeSymbol]
  · simp only [List.countP_append, countP_flatMap_range Event.isReadBits _ nc.toNat
      (fun g => (countP_groupEvents _ _ _ _).2.1)]
    simp [List.countP_cons, Event.isReadBits]
  · simp only [List.countP_append, countP_flatMap_range Event.isWrite _ nc.toNat
      (fun g => (countP_groupEvents _ _ _ _).2.2)]
    simp [List.countP_cons, Event.isWrite]
  · simp only [writtenIndices_append, writtenIndices_groups]
    simp [writtenIndices]

theorem fieldBuf_first_group {β δ : Type} (C : Collab β δ) (n : Nat) (d : δ) (b : β) :
    ∀ j, j ≤ n → fieldBuf C n d b j = readsBuf C (nthSymbol C d 0) b j
  | 0, _ => by simp [fieldBuf, readsBuf]
  | j + 1, hj => by
    have hdiv : j / n = 0 := Nat.div_eq_of_lt (by omega)
    rw [fieldBuf, hdiv, fieldBuf_first_group C n d b j (by omega)]
    simp only [readsBuf, Function.iterate_succ_apply']

theorem fieldBuf_shift {β δ : Type} (C : Collab β δ) (n : Nat) (hn : 0 < n) (d : δ) (b : β) :
    ∀ k, fieldBuf C n d b (n + k)
      = fieldBuf C n (C.decodeSymbol d).2 (fieldBuf C n d b n) k
  | 0 => by simp [fieldBuf]
  | k + 1 => by
    have e : n + (k + 1) = (n + k) + 1 := by omega
    rw [e, fieldBuf, fieldBuf, fieldBuf_shift C n hn d b k, Nat.add_div_left k hn,
      nthSymbol_succ]

theorem nthField_first_group {β δ : Type} (C : Collab β δ) (n : Nat) (d : δ) (b : β)
    (j : Nat) (hj : j < n) :
    nthField C n d b j
      = (C.decodeLSB32 (nthSymbol C d 0) (readsBuf C (nthSymbol C d 0) b j)).1 := by
  rw [nthField, Nat.div_eq_of_lt hj, fieldBuf_first_group C n d b j (by omega)]

theorem nthField_shift {β δ : Type} (C : Collab β δ) (n : Nat) (hn : 0 < n) (d : δ) (b : β)
    (k : Nat) :
    nthField C n d b (n + k)
      = nthField C n (C.decodeSymbol d).2 (fieldBuf C n d b n) k := by
  rw [nthField, nthField, fieldBuf_shift C n hn d b k, Nat.add_div_left k hn, nthSymbol_succ]

theorem componentLoop_reads {β δ : Type} (C : Collab β δ) (t : Nat) :
    ∀ (n vid : Nat) (s : St β) (vid1 : Nat) (s1 : St β),
      componentLoop C t n vid s = (true, vid1, s1) →
      s1.buf = readsBuf C t s.buf n ∧
      ∀ j, j < n → (C.decodeLSB32 t (readsBuf C t s.buf j)).1 = some (s1.out (vid + j))
  | 0, vid, s, vid1, s1, h => by
    simp only [componentLoop, Prod.mk.injEq, true_and] at h
    obtain ⟨_, rfl⟩ := h
    exact ⟨rfl, fun j hj => absurd hj (by omega)⟩
  | n + 1, vid, s, vid1, s1, h => by
    have hfr := (componentLoop_success C t (n + 1) vid s vid1 s1 h).2.2
    rw [componentLoop] at h
    rcases hr : C.decodeLSB32 t s.buf with ⟨_ | val, b⟩
    · simp [hr] at h
    · simp only [hr] at h
      obtain ⟨h1, h2⟩ := componentLoop_reads C t n (vid + 1) _ vid1 s1 h
      obtain ⟨_, _, h3⟩ := componentLoop_success C t n (vid + 1) _ vid1 s1 h
      have hb : ((s.step b (Event.readBits t (some val))).store vid val).buf = b := rfl
      have hnext : ∀ j, readsBuf C t s.buf (j + 1) = readsBuf C t b j := by
        intro j
        simp only [readsBuf, Function.iterate_succ_apply, hr]
      rw [hb] at h1 h2
      refine ⟨by rw [hnext]; exact h1, ?_⟩
      intro j hj
      cases j with
      | zero =>
        have hv : s1.out vid = val := by
          rw [h3 vid (Or.inl (by omega))]
          simp [St.step, St.store]
        simp [readsBuf, hr, hv]
      | succ j =>
        rw [hnext, h2 j (by omega)]
        congr 2
        omega

theorem taggedGroup_reads {β δ : Type} (C : Collab β δ) (nc : Int) (L L1 : TagLoop β δ)
    (h : taggedGroup C nc L = (true, L1)) :
    L1.st.buf = readsBuf C (nthSymbol C L.dec 0) L.st.buf nc.toNat ∧
    ∀ j, j < nc.toNat →
      (C.decodeLSB32 (nthSymbol C L.dec 0) (readsBuf C (nthSymbol C L.dec 0) L.st.buf j)).1
        = some (L1.st.out (L.value_id + j)) := by
  have h0 : nthSymbol C L.dec 0 = (C.decodeSymbol L.dec).1 := by simp [nthSymbol, decAfter]
  unfold taggedGroup at h
  simp only at h
  rcases hcl : componentLoop C (C.decodeSymbol L.dec).1 nc.toNat L.value_id
      (L.st.step L.st.buf (Event.decodeSymbol (C.decodeSymbol L.dec).1)) with ⟨_ | _, vid, s1⟩
  · simp [hcl] at h
  · simp only [hcl, Prod.mk.injEq, true_and] at h
    subst h
    obtain ⟨h1, h2⟩ := componentLoop_reads C _ _ _ _ _ _ hcl
    rw [h0]
    exact ⟨h1, h2⟩

theorem taggedLoop_reads {β δ : Type} (C : Collab β δ) (nv nc : Int) (hc : 1 ≤ nc) :
    ∀ (fuel : Nat) (L L1 : TagLoop β δ),
      taggedLoop C nv nc fuel L = some (true, L1) →
      L1.st.buf = fieldBuf C nc.toNat L.dec L.st.buf (numGroups (nv - L.i) nc * nc.toNat) ∧
      ∀ k, k < numGroups (nv - L.i) nc * nc.toNat →
        nthField C nc.toNat L.dec L.st.buf k = some (L1.st.out (L.value_id + k))
  | 0, L, L1, h => by
    by_cases hi : L.i < nv
    · simp [taggedLoop, hi] at h
    · simp only [taggedLoop, hi, if_false, Option.some.injEq, Prod.mk.injEq, true_and] at h
      subst h
      rw [numGroups_of_nonpos (nv - L.i) nc (by omega) hc]
      exact ⟨by simp [fieldBuf], fun k hk => absurd hk (by omega)⟩
  | fuel + 1, L, L1, h => by
    by_cases hi : L.i < nv
    · have hn : 0 < nc.toNat := by omega
      rw [taggedLoop, if_pos hi] at h
      rcases hg : taggedGroup C nc L with ⟨_ | _, L0⟩
      · simp [hg] at h
      · simp only [hg] at h
        obtain ⟨g1, g2, g3, _, _⟩ := taggedGroup_success C nc L L0 hg
        obtain ⟨q1, q2⟩ := taggedGroup_reads C nc L L0 hg
        obtain ⟨_, r2⟩ := taggedLoop_success C nv nc hc fuel L0 L1 h
        obtain ⟨p1, p2⟩ := taggedLoop_reads C nv nc hc fuel L0 L1 h
        have hG : numGroups (nv - L.i) nc = numGroups (nv - L0.i) nc + 1 := by
          rw [numGroups_of_pos (nv - L.i) nc (by omega) hc, g1]
          congr 2
          ring
        have e : (numGroups (nv - L0.i) nc + 1) * nc.toNat
            = nc.toNat + numGroups (nv - L0.i) nc * nc.toNat := by
          rw [Nat.add_mul, Nat.one_mul, Nat.add_comm]
        have hb0 : L0.st.buf = fieldBuf C nc.toNat L.dec L.st.buf nc.toNat := by
          rw [q1, fieldBuf_first_group C nc.toNat L.dec L.st.buf nc.toNat (Nat.le_refl _)]
        rw [hG, e]
        constructor
        · rw [fieldBuf_shift C nc.toNat hn, ← hb0, ← g3]
          exact p1
        · intro k hk
          by_cases hkn : k < nc.toNat
          · rw [nthField_first_group C nc.toNat L.dec L.st.buf k hkn, q2 k hkn,
              r2 (L.value_id + k) (Or.inl (by omega))]
          · obtain ⟨k0, rfl⟩ : ∃ k0, k = nc.toNat + k0 := ⟨k - nc.toNat, by omega⟩
            rw [nthField_shift C nc.toNat hn, ← hb0, ← g3, p2 k0 (by omega)]
            congr 2
            omega
    · simp only [taggedLoop, hi, if_false, Option.some.injEq, Prod.mk.injEq, true_and] at h
      subst h
      rw [numGroups_of_nonpos (nv - L.i) nc (by omega) hc]
      exact ⟨by simp [fieldBuf], fun k hk => absurd hk (by omega)⟩

theorem fieldRead_eq {β δ : Type} (C : Collab β δ) (n : Nat) (d : δ) (b : β)
    (g j : Nat) (hj : j < n) :
    C.decodeLSB32 (nthSymbol C d g) (fieldBuf C n d b (g * n + j))
      = (nthField C n d b (g * n + j), fieldBuf C n d b (g * n + j + 1)) := by
  have hdiv : (g * n + j) / n = g := by
    rw [Nat.mul_comm, Nat.mul_add_div (by omega : n > 0), Nat.div_eq_of_lt hj, Nat.add_zero]
  simp only [nthField, fieldBuf, hdiv]

theorem group_index_lt (G n g j : Nat) (hg : g < G) (hj : j < n) : g * n + j < G * n := by
  have h1 : (g + 1) * n ≤ G * n := Nat.mul_le_mul_right n hg
  rw [Nat.add_mul, Nat.one_mul] at h1
  omega

theorem DecodeTaggedSymbols_success_state {β δ : Type} (C : Collab β δ) (fuel : Nat)
    (nv nc : Int) (s s1 : St β) (hc : 1 ≤ nc)
    (h : DecodeTaggedSymbols C fuel nv nc s = some (true, s1)) :
    ∃ d0 b0 d1 b1,
      C.create 5 s.buf = (true, d0, b0) ∧ C.startDecoding d0 b0 = (true, d1, b1) ∧
      s1.log = s.log ++ [Event.create 5 true, Event.startDecoding true, Event.startBitDecoding]
        ++ (List.range (numGroups nv nc)).flatMap (fun g =>
              groupEvents (nthSymbol C d1 g) nc.toNat (g * nc.toNat) s1.out)
        ++ [Event.endDecoding, Event.endBitDecoding] ∧
      s1.buf = C.endBitDecoding
        (fieldBuf C nc.toNat d1 (C.startBitDecoding b1) (numGroups nv nc * nc.toNat)) ∧
      (∀ k, k < numGroups nv nc * nc.toNat →
        nthField C nc.toNat d1 (C.startBitDecoding b1) k = some (s1.out k)) ∧
      ∀ x, numGroups nv nc * nc.toNat ≤ x → s1.out x = s.out x := by
  rcases hcr : C.create 5 s.buf with ⟨_ | _, d0, b0⟩
  · simp [DecodeTaggedSymbols, hcr] at h
  rcases hst : C.startDecoding d0 b0 with ⟨_ | _, d1, b1⟩
  · simp [DecodeTaggedSymbols, hcr, hst] at h
  by_cases hn : nv > 0 ∧ C.numSymbols d1 = 0
  · simp [DecodeTaggedSymbols, hcr, hst, hn] at h
  simp only [DecodeTaggedSymbols, hcr, hst, hn, if_false] at h
  rcases hl : taggedLoop C nv nc fuel
      { i := 0, value_id := 0, dec := d1,
        st := ((s.step b0 (Event.create 5 true)).step b1 (Event.startDecoding true)).step
          (C.startBitDecoding b1) Event.startBitDecoding } with _ | ⟨_ | _, L⟩
  · simp [hl] at h
  · simp [hl] at h
  · simp only [hl, Option.some.injEq, Prod.mk.injEq, true_and] at h
    obtain ⟨r1, r2⟩ := taggedLoop_success C nv nc hc fuel _ L hl
    obtain ⟨p1, p2⟩ := taggedLoop_reads C nv nc hc fuel _ L hl
    simp only [Int.sub_zero, Nat.zero_add, St.step] at r1 r2 p1 p2
    have hout : s1.out = L.st.out := by rw [← h]; rfl
    have hlog : s1.log = L.st.log ++ [Event.endDecoding] ++ [Event.endBitDecoding] := by
      rw [← h]; rfl
    have hbuf : s1.buf = C.endBitDecoding L.st.buf := by rw [← h]; rfl
    refine ⟨d0, b0, d1, b1, rfl, hst, ?_, ?_, ?_, ?_⟩
    · rw [hlog, r1, hout]
      simp
    · rw [hbuf, p1]
    · intro k hk
      rw [hout, p2 k hk]
    · intro x hx
      rw [hout, r2 x (Or.inr hx)]

/-- C3: for `num_values ≥ 1` and `num_components ≥ 1` the tagged path returns
(the group loop ends within `ceil(num_values / num_components)` iterations), and
a successful run is: create the tag decoder, begin the session, enter bit mode,
then for each group `g < ceil(num_values / num_components)` one tag decode (call
`g` of `DecodeSymbol`, value `t_g`) followed by exactly `num_components` reads of
`t_g` bits, read `j` being stored at index `g * num_components + j`, then end of
session and of bit mode. On the stream itself: read `j` of group `g` is the call
`DecodeLeastSignificantBits32(t_g, _)` on the stream state left by the
`g * num_components + j` reads before it, the value it returns is what
`out_values[g * num_components + j]` holds afterwards, every later slot is
unchanged, and the stream ends in the state left by `EndBitDecoding` after
exactly `num_components * ceil(..)` such reads. So exactly `ceil(..)` tags are
decoded, `num_components * ceil(..)` bit fields are read and as many slots are
written, at the indices `0, 1, 2, ...` in increasing order, each once. For 6
values in groups of 2 that is 3 tags and 6 bit fields. -/
theorem DecodeTaggedSymbols_groups {β δ : Type} (C : Collab β δ) (fuel : Nat)
    (num_values num_components : Int) (s : St β)
    (hv : 1 ≤ num_values) (hc : 1 ≤ num_components) :
    (num_values ≤ ((numGroups num_values num_components * num_components.toNat : Nat) : Int) ∧
      ((numGroups num_values num_components * num_components.toNat : Nat) : Int)
        < num_values + num_components) ∧
    (numGroups num_values num_components ≤ fuel →
      ∃ r, DecodeTaggedSymbols C fuel num_values num_components s = some r) ∧
    (∀ s1, DecodeTaggedSymbols C fuel num_values num_components s = some (true, s1) →
      (∃ d0 b0 d1 b1,
        C.create 5 s.buf = (true, d0, b0) ∧ C.startDecoding d0 b0 = (true, d1, b1) ∧
        s1.log = s.log
          ++ [Event.create 5 true, Event.startDecoding true, Event.startBitDecoding]
          ++ (List.range (numGroups num_values num_components)).flatMap (fun g =>
                groupEvents (nthSymbol C d1 g) num_components.toNat
                  (g * num_components.toNat) s1.out)
          ++ [Event.endDecoding, Event.endBitDecoding] ∧
        (∀ g j, g < numGroups num_values num_components → j < num_components.toNat →
          C.decodeLSB32 (nthSymbol C d1 g)
              (fieldBuf C num_components.toNat d1 (C.startBitDecoding b1)
                (g * num_components.toNat + j))
            = (some (s1.out (g * num_components.toNat + j)),
               fieldBuf C num_components.toNat d1 (C.startBitDecoding b1)
                (g * num_components.toNat + j + 1))) ∧
        s1.buf = C.endBitDecoding
          (fieldBuf C num_components.toNat d1 (C.startBitDecoding b1)
            (numGroups num_values num_components * num_components.toNat)) ∧
        (∀ x, numGroups num_values num_components * num_components.toNat ≤ x →
          s1.out x = s.out x)) ∧
      s1.log.countP Event.isDecodeSymbol
        = s.log.countP Event.isDecodeSymbol + numGroups num_values num_components ∧
      s1.log.countP Event.isReadBits
        = s.log.countP Event.isReadBits
          + numGroups num_values num_components * num_components.toNat ∧
      s1.log.countP Event.isWrite
        = s.log.countP Event.isWrite
          + numGroups num_values num_components * num_components.toNat ∧
      writtenIndices s1.log
        = writtenIndices s.log
          ++ List.range (numGroups num_values num_components * num_components.toNat)) ∧
    (numGroups 6 2 = 3 ∧ numGroups 6 2 * (2 : Int).toNat = 6) := by
  refine ⟨⟨numGroups_mul_ge _ _ hc, numGroups_mul_lt _ _ (by omega) hc⟩, ?_, ?_, by decide⟩
  · exact DecodeTaggedSymbols_terminates C fuel num_values num_components s hc
  · intro s1 h
    obtain ⟨d0, b0, d1, b1, h1, h2, h3, h4, h5, h6⟩ :=
      DecodeTaggedSymbols_success_state C fuel num_values num_components s s1 hc h
    refine ⟨⟨d0, b0, d1, b1, h1, h2, h3, ?_, h4, h6⟩,
      DecodeTaggedSymbols_success_counts C fuel num_values num_components s s1 hc h⟩
    intro g j hg hj
    rw [fieldRead_eq C _ d1 _ g j hj, h5 _ (group_index_lt _ _ g j hg hj)]

/-- Instance of C3: six values in groups of two over `demoMaskedStream`; the run
succeeds with three tag decodes, the six values read end up in slots `0..5`, and
the stream is consumed to its end. -/
theorem DecodeTaggedSymbols_groups_witness :
    (1 : Int) ≤ 6 ∧ (1 : Int) ≤ 2 ∧
    (∃ r, DecodeTaggedSymbols demo 3 6 2 (demoSt demoMaskedStream) = some r) ∧
    (∃ s1, DecodeTaggedSymbols demo 3 6 2 (demoSt demoMaskedStream) = some (true, s1) ∧
      (List.range 7).map s1.out = [6, 1, 17, 30, 1, 0, 0] ∧ s1.buf = [] ∧
      (∃ d0 b0 d1 b1,
        demo.create 5 (demoSt demoMaskedStream).buf = (true, d0, b0) ∧
        demo.startDecoding d0 b0 = (true, d1, b1) ∧
        s1.log = (demoSt demoMaskedStream).log
          ++ [Event.create 5 true, Event.startDecoding true, Event.startBitDecoding]
          ++ (List.range (numGroups 6 2)).flatMap (fun g =>
                groupEvents (nthSymbol demo d1 g) (2 : Int).toNat
                  (g * (2 : Int).toNat) s1.out)
          ++ [Event.endDecoding, Event.endBitDecoding] ∧
        (∀ g j, g < numGroups 6 2 → j < (2 : Int).toNat →
          demo.decodeLSB32 (nthSymbol demo d1 g)
              (fieldBuf demo (2 : Int).toNat d1 (demo.startBitDecoding b1)
                (g * (2 : Int).toNat + j))
            = (some (s1.out (g * (2 : Int).toNat + j)),
               fieldBuf demo (2 : Int).toNat d1 (demo.startBitDecoding b1)
                (g * (2 : Int).toNat + j + 1))) ∧
        s1.buf = demo.endBitDecoding
          (fieldBuf demo (2 : Int).toNat d1 (demo.startBitDecoding b1)
            (numGroups 6 2 * (2 : Int).toNat)) ∧
        (∀ x, numGroups 6 2 * (2 : Int).toNat ≤ x →
          s1.out x = (demoSt demoMaskedStream).out x)) ∧
      s1.log.countP Event.isDecodeSymbol
        = (demoSt demoMaskedStream).log.countP Event.isDecodeSymbol + numGroups 6 2 ∧
      writtenIndices s1.log
        = writtenIndices (demoSt demoMaskedStream).log
          ++ List.range (numGroups 6 2 * (2 : Int).toNat)) := by
  have hrun : ∃ s1, DecodeTaggedSymbols demo 3 6 2 (demoSt demoMaskedStream) = some (true, s1) ∧
      (List.range 7).map s1.out = [6, 1, 17, 30, 1, 0, 0] ∧ s1.buf = [] :=
    ⟨_, rfl, by decide, by decide⟩
  obtain ⟨s1, h1, h2, h3⟩ := hrun
  have key := DecodeTaggedSymbols_groups demo 3 6 2 (demoSt demoMaskedStream)
    (by decide) (by decide)
  exact ⟨by decide, by decide, key.2.1 (by decide), s1, h1, h2, h3,
    (key.2.2.1 s1 h1).1, (key.2.2.1 s1 h1).2.1, (key.2.2.1 s1 h1).2.2.2.2⟩

/-- C2, as stated, fails: with `num_values = 3` and `num_components = 2` the run
over `demoShortStream` succeeds and its last group reads two bit fields (not
`3 mod 2 = 1`) and stores them at the indices 2 and 3, so four output entries
are written, one more than `num_values`. -/
theorem DecodeTaggedSymbols_partial_group_counterexample :
    (DecodeTaggedSymbols demo 2 3 2 (demoSt demoShortStream)).map (fun r => (r.1, r.2.log))
      = some (true,
          [Event.create 5 true, Event.startDecoding true, Event.startBitDecoding,
           Event.decodeSymbol 3, Event.readBits 3 (some 6), Event.write 0 6,
           Event.readBits 3 (some 1), Event.write 1 1,
           Event.decodeSymbol 5, Event.readBits 5 (some 17), Event.write 2 17,
           Event.readBits 5 (some 30), Event.write 3 30,
           Event.endDecoding, Event.endBitDecoding]) ∧
    ¬ (∀ s1, DecodeTaggedSymbols demo 2 3 2 (demoSt demoShortStream) = some (true, s1) →
        (writtenIndices s1.log).length = (3 : Int).toNat) := by
  constructor
  · decide
  · intro hall
    have hrun : ∃ s1,
        DecodeTaggedSymbols demo 2 3 2 (demoSt demoShortStream) = some (true, s1) ∧
        (writtenIndices s1.log).length = 4 := ⟨_, rfl, by decide⟩
    obtain ⟨s1, h1, h2⟩ := hrun
    have h3 := hall s1 h1
    rw [h2] at h3
    exact absurd h3 (by decide)

/-- C2, amended: for `num_values > 0` and `num_components ≥ 1` the tagged path
returns, and a successful run writes exactly
`ceil(num_values / num_components) * num_components` output entries, at the
indices `0, 1, 2, ...` in order: every group, the last one included, holds
`num_components` values. Afterwards slot `k`, for every `k` below that number,
holds the value that bit-field read number `k` returned from the stream (read
`k` asking for as many bits as tag number `k / num_components` says), every
later slot is unchanged, and the stream is in the state left by `EndBitDecoding`
after exactly that many reads. That number is at least `num_values`, and it is
`num_values` exactly when `num_values` is a multiple of `num_components`. -/
theorem DecodeTaggedSymbols_written {β δ : Type} (C : Collab β δ) (fuel : Nat)
    (num_values num_components : Int) (s : St β)
    (hv : 0 < num_values) (hc : 1 ≤ num_components) :
    (numGroups num_values num_components ≤ fuel →
      ∃ r, DecodeTaggedSymbols C fuel num_values num_components s = some r) ∧
    (∀ s1, DecodeTaggedSymbols C fuel num_values num_components s = some (true, s1) →
      writtenIndices s1.log
        = writtenIndices s.log
          ++ List.range (numGroups num_values num_components * num_components.toNat) ∧
      (∃ d0 b0 d1 b1,
        C.create 5 s.buf = (true, d0, b0) ∧ C.startDecoding d0 b0 = (true, d1, b1) ∧
        s1.log = s.log
          ++ [Event.create 5 true, Event.startDecoding true, Event.startBitDecoding]
          ++ (List.range (numGroups num_values num_components)).flatMap (fun g =>
                groupEvents (nthSymbol C d1 g) num_components.toNat
                  (g * num_components.toNat) s1.out)
          ++ [Event.endDecoding, Event.endBitDecoding] ∧
        (∀ k, k < numGroups num_values num_components * num_components.toNat →
          nthField C num_components.toNat d1 (C.startBitDecoding b1) k = some (s1.out k)) ∧
        s1.buf = C.endBitDecoding
          (fieldBuf C num_components.toNat d1 (C.startBitDecoding b1)
            (numGroups num_values num_components * num_components.toNat))) ∧
      (∀ x, numGroups num_values num_components * num_components.toNat ≤ x →
        s1.out x = s.out x)) ∧
    num_values ≤ ((numGroups num_values num_components * num_components.toNat : Nat) : Int) ∧
    (((numGroups num_values num_components * num_components.toNat : Nat) : Int) = num_values
      ↔ num_components ∣ num_values) := by
  refine ⟨DecodeTaggedSymbols_terminates C fuel num_values num_components s hc, ?_,
    numGroups_mul_ge _ _ hc, numGroups_mul_eq_iff _ _ (by omega) hc⟩
  intro s1 h
  obtain ⟨d0, b0, d1, b1, h1, h2, h3, h4, h5, h6⟩ :=
    DecodeTaggedSymbols_success_state C fuel num_values num_components s s1 hc h
  exact ⟨(DecodeTaggedSymbols_success_counts C fuel num_values num_components s s1 hc h).2.2.2,
    ⟨d0, b0, d1, b1, h1, h2, h3, h5, h4⟩, h6⟩

/-- Instance of amended C2 over `demoMaskedShortStream`: three values in groups
of two; two groups, four entries written (the four values read, in
slots `0..3`), slot 4 untouched, the stream consumed to its end. -/
theorem DecodeTaggedSymbols_written_witness :
    (0 : Int) < 3 ∧ (1 : Int) ≤ 2 ∧
    (∃ r, DecodeTaggedSymbols demo 2 3 2 (demoSt demoMaskedShortStream) = some r) ∧
    (∃ s1, DecodeTaggedSymbols demo 2 3 2 (demoSt demoMaskedShortStream) = some (true, s1) ∧
      (List.range 5).map s1.out = [6, 1, 17, 30, 0] ∧ s1.buf = [] ∧
      writtenIndices s1.log
        = writtenIndices (demoSt demoMaskedShortStream).log
          ++ List.range (numGroups 3 2 * (2 : Int).toNat) ∧
      (∃ d0 b0 d1 b1,
        demo.create 5 (demoSt demoMaskedShortStream).buf = (true, d0, b0) ∧
        demo.startDecoding d0 b0 = (true, d1, b1) ∧
        s1.log = (demoSt demoMaskedShortStream).log
          ++ [Event.create 5 true, Event.startDecoding true, Event.startBitDecoding]
          ++ (List.range (numGroups 3 2)).flatMap (fun g =>
                groupEvents (nthSymbol demo d1 g) (2 : Int).toNat
                  (g * (2 : Int).toNat) s1.out)
          ++ [Event.endDecoding, Event.endBitDecoding] ∧
        (∀ k, k < numGroups 3 2 * (2 : Int).toNat →
          nthField demo (2 : Int).toNat d1 (demo.startBitDecoding b1) k = some (s1.out k)) ∧
        s1.buf = demo.endBitDecoding
          (fieldBuf demo (2 : Int).toNat d1 (demo.startBitDecoding b1)
            (numGroups 3 2 * (2 : Int).toNat))) ∧
      (∀ x, numGroups 3 2 * (2 : Int).toNat ≤ x →
        s1.out x = (demoSt demoMaskedShortStream).out x)) ∧
    (3 : Int) ≤ ((numGroups 3 2 * (2 : Int).toNat : Nat) : Int) := by
  have hrun : ∃ s1, DecodeTaggedSymbols demo 2 3 2 (demoSt demoMaskedShortStream) = some (true, s1) ∧
      (List.range 5).map s1.out = [6, 1, 17, 30, 0] ∧ s1.buf = [] :=
    ⟨_, rfl, by decide, by decide⟩
  obtain ⟨s1, h1, h2, h3⟩ := hrun
  have key := DecodeTaggedSymbols_written demo 2 3 2 (demoSt demoMaskedShortStream)
    (by decide) (by decide)
  exact ⟨by decide, by decide, key.1 (by decide),
    ⟨s1, h1, h2, h3, (key.2.1 s1 h1).1, (key.2.1 s1 h1).2.1, (key.2.1 s1 h1).2.2⟩, key.2.2.1⟩

/-! ## Zig-zag remapping: reversibility and the batch variant -/

theorem ConvertSymbolToSignedInt_eq_lit (v : Nat) (hv : v < 4294967296) :
    ConvertSymbolToSignedInt v
      = if v % 2 = 0 then ((v / 2 : Nat) : Int) else -((v / 2 : Nat) : Int) - 1 :=
  ConvertSymbolToSignedInt_eq v (by norm_num; exact hv)

theorem zigzagPreimage_spec (s : Int) (h1 : -2147483648 ≤ s) (h2 : s ≤ 2147483647) :
    zigzagPreimage s < 4294967296 ∧ ConvertSymbolToSignedInt (zigzagPreimage s) = s := by
  have hlt : zigzagPreimage s < 4294967296 := by
    unfold zigzagPreimage
    split <;> omega
  refine ⟨hlt, ?_⟩
  rw [ConvertSymbolToSignedInt_eq_lit _ hlt]
  unfold zigzagPreimage
  split <;> split <;> omega

theorem ConvertSymbolToSignedInt_inj (v w : Nat) (hv : v < 4294967296) (hw : w < 4294967296)
    (h : ConvertSymbolToSignedInt v = ConvertSymbolToSignedInt w) : v = w := by
  rw [ConvertSymbolToSignedInt_eq_lit v hv, ConvertSymbolToSignedInt_eq_lit w hw] at h
  split at h <;> split at h <;> omega

/-- C11: `ConvertSymbolToSignedInt` is a bijection from the unsigned 32-bit values
onto the signed 32-bit values: it maps the former into the latter, distinct
inputs give distinct outputs, and every signed 32-bit `s` is the image of exactly
one unsigned 32-bit value, namely `2 * s` when `s ≥ 0` and `-2 * s - 1` when
`s < 0`; the preimages of `INT32_MIN` and `INT32_MAX` are `2^32 - 1` and
`2^32 - 2`. -/
theorem ConvertSymbolToSignedInt_bijective :
    Set.BijOn ConvertSymbolToSignedInt {v : Nat | v < 2 ^ 32}
      {s : Int | -2 ^ 31 ≤ s ∧ s ≤ 2 ^ 31 - 1} ∧
    (∀ s : Int, -2 ^ 31 ≤ s → s ≤ 2 ^ 31 - 1 →
      zigzagPreimage s < 2 ^ 32 ∧
      ((zigzagPreimage s : Nat) : Int) = (if 0 ≤ s then 2 * s else -2 * s - 1) ∧
      ConvertSymbolToSignedInt (zigzagPreimage s) = s ∧
      ∀ v : Nat, v < 2 ^ 32 → ConvertSymbolToSignedInt v = s → v = zigzagPreimage s) ∧
    (zigzagPreimage (-2 ^ 31) = 2 ^ 32 - 1 ∧ zigzagPreimage (2 ^ 31 - 1) = 2 ^ 32 - 2) := by
  refine ⟨⟨?_, ?_, ?_⟩, ?_, ?_⟩
  · intro v hv
    simp only [Set.mem_setOf_eq] at hv ⊢
    norm_num at hv ⊢
    rw [ConvertSymbolToSignedInt_eq_lit v hv]
    split <;> constructor <;> omega
  · intro v hv w hw h
    simp only [Set.mem_setOf_eq] at hv hw
    norm_num at hv hw
    exact ConvertSymbolToSignedInt_inj v w hv hw h
  · intro s hs
    simp only [Set.mem_setOf_eq] at hs
    norm_num at hs
    obtain ⟨p1, p2⟩ := zigzagPreimage_spec s hs.1 hs.2
    exact ⟨zigzagPreimage s, by simp only [Set.mem_setOf_eq]; norm_num; exact p1, p2⟩
  · intro s h1 h2
    norm_num at h1 h2 ⊢
    obtain ⟨p1, p2⟩ := zigzagPreimage_spec s h1 h2
    refine ⟨p1, ?_, p2, ?_⟩
    · unfold zigzagPreimage
      split <;> omega
    · intro v hv hvs
      exact ConvertSymbolToSignedInt_inj v _ hv p1 (hvs.trans p2.symm)
  · constructor <;> decide

/-- Instance of C11 at `INT32_MIN`: its only preimage is `2^32 - 1`. -/
theorem ConvertSymbolToSignedInt_bijective_witness :
    zigzagPreimage (-2147483648) < 2 ^ 32 ∧
    ConvertSymbolToSignedInt (zigzagPreimage (-2147483648)) = -2147483648 ∧
    zigzagPreimage (-2147483648) = 4294967295 :=
  ⟨(ConvertSymbolToSignedInt_bijective.2.1 (-2147483648) (by norm_num) (by norm_num)).1,
   (ConvertSymbolToSignedInt_bijective.2.1 (-2147483648) (by norm_num) (by norm_num)).2.2.1,
   by decide⟩

theorem convertLoop_eq (inp : Nat → Nat) :
    ∀ (n i : Nat) (out : Nat → Int),
      convertLoop inp n i out
        = fun x => if i ≤ x ∧ x < i + n then ConvertSymbolToSignedInt (inp x) else out x
  | 0, i, out => by
    funext x
    have hx : ¬ (i ≤ x ∧ x < i + 0) := by omega
    rw [convertLoop, if_neg hx]
  | n + 1, i, out => by
    rw [convertLoop, convertLoop_eq inp n (i + 1)]
    funext x
    by_cases hx : x = i
    · subst hx
      have h1 : ¬ (x + 1 ≤ x ∧ x < x + 1 + n) := by omega
      have h2 : x ≤ x ∧ x < x + (n + 1) := by omega
      rw [if_neg h1, if_pos h2, Function.update_same]
    · rw [Function.update_noteq hx]
      by_cases h1 : i + 1 ≤ x ∧ x < i + 1 + n
      · have h2 : i ≤ x ∧ x < i + (n + 1) := by omega
        rw [if_pos h1, if_pos h2]
      · have h2 : ¬ (i ≤ x ∧ x < i + (n + 1)) := by omega
        rw [if_neg h1, if_neg h2]

/-- C12: `ConvertSymbolsToSignedInts` leaves `out[i] = ConvertSymbolToSignedInt(in[i])`
for every `i` in `0..in_values-1` and every other slot of `out` as it was; for
`in_values ≤ 0` the output memory is unchanged; when `in` holds a sequence `xs`
and `in_values` is its length, the first `in_values` slots of `out` are the
element-wise image of `xs` (same length); over `[0,1,2,3,4]` that is
`[0,-1,1,-2,2]`. -/
theorem ConvertSymbolsToSignedInts_spec (inp : Nat → Nat) (in_values : Int)
    (out : Nat → Int) :
    (∀ i : Nat, (i : Int) < in_values →
      ConvertSymbolsToSignedInts inp in_values out i = ConvertSymbolToSignedInt (inp i)) ∧
    (∀ i : Nat, in_values ≤ (i : Int) → ConvertSymbolsToSignedInts inp in_values out i = out i) ∧
    (in_values ≤ 0 → ConvertSymbolsToSignedInts inp in_values out = out) ∧
    (∀ xs : List Nat, in_values = (xs.length : Int) →
      (List.range xs.length).map (ConvertSymbolsToSignedInts (arrayOf xs) in_values out)
        = xs.map ConvertSymbolToSignedInt) ∧
    (List.range 5).map (ConvertSymbolsToSignedInts (arrayOf [0, 1, 2, 3, 4]) 5 out)
      = [0, -1, 1, -2, 2] := by
  have hpt : ∀ (f : Nat → Nat) (n : Int) (i : Nat), (i : Int) < n →
      ConvertSymbolsToSignedInts f n out i = ConvertSymbolToSignedInt (f i) := by
    intro f n i hi
    have h1 : 0 ≤ i ∧ i < 0 + n.toNat := by omega
    simp only [ConvertSymbolsToSignedInts, convertLoop_eq, if_pos h1]
  have hfr : ∀ i : Nat, in_values ≤ (i : Int) →
      ConvertSymbolsToSignedInts inp in_values out i = out i := by
    intro i hi
    have h1 : ¬ (0 ≤ i ∧ i < 0 + in_values.toNat) := by omega
    simp only [ConvertSymbolsToSignedInts, convertLoop_eq, if_neg h1]
  have hlist : ∀ (xs : List Nat) (n : Int), n = (xs.length : Int) →
      (List.range xs.length).map (ConvertSymbolsToSignedInts (arrayOf xs) n out)
        = xs.map ConvertSymbolToSignedInt := by
    intro xs n hn
    apply List.ext_getElem
    · simp
    · intro i h1 h2
      have hi : i < xs.length := by simpa using h1
      simp only [List.getElem_map, List.getElem_range]
      rw [hpt (arrayOf xs) n i (by omega)]
      simp [arrayOf, List.getElem?_eq_getElem hi]
  refine ⟨hpt inp in_values, hfr, ?_, fun xs hn => hlist xs in_values hn, ?_⟩
  · intro h0
    funext i
    exact hfr i (by omega)
  · have h5 := hlist [0, 1, 2, 3, 4] 5 (by decide)
    simp only [List.length_cons, List.length_nil] at h5
    rw [h5]
    decide

/-- Instance of C12: three values `[5, 0, 4294967295]`, all slots of `out` zero before. -/
theorem ConvertSymbolsToSignedInts_spec_witness :
    ((2 : Nat) : Int) < 3 ∧
    ConvertSymbolsToSignedInts (arrayOf [5, 0, 4294967295]) 3 (fun _ => 0) 2
      = ConvertSymbolToSignedInt (arrayOf [5, 0, 4294967295] 2) ∧
    (3 : Int) ≤ ((7 : Nat) : Int) ∧
    ConvertSymbolsToSignedInts (arrayOf [5, 0, 4294967295]) 3 (fun _ => 0) 7 = 0 :=
  ⟨by decide,
   (ConvertSymbolsToSignedInts_spec (arrayOf [5, 0, 4294967295]) 3 (fun _ => 0)).1 2 (by decide),
   by decide,
   (ConvertSymbolsToSignedInts_spec (arrayOf [5, 0, 4294967295]) 3 (fun _ => 0)).2.1 7
     (by decide)⟩

/-! ## Tagged path: what any run records -/

theorem componentLoop_countP {β δ : Type} (C : Collab β δ) (t : Nat) (p : Event → Bool)
    (hp1 : ∀ n v, p (Event.readBits n v) = false) (hp2 : ∀ i v, p (Event.write i v) = false) :
    ∀ (n vid : Nat) (s : St β),
      (componentLoop C t n vid s).2.2.log.countP p = s.log.countP p
  | 0, vid, s => by simp [componentLoop]
  | n + 1, vid, s => by
    rw [componentLoop]
    rcases hr : C.decodeLSB32 t s.buf with ⟨_ | val, b⟩
    · simp [St.step, List.countP_append, List.countP_cons, hp1]
    · simp only []
      rw [componentLoop_countP C t p hp1 hp2 n]
      simp [St.step, St.store, List.countP_append, List.countP_cons, hp1, hp2]

theorem componentLoop_progress {β δ : Type} (C : Collab β δ) (t : Nat) :
    ∀ (n vid : Nat) (s : St β),
      vid ≤ (componentLoop C t n vid s).2.1 ∧
      writtenIndices (componentLoop C t n vid s).2.2.log
        = writtenIndices s.log ++ List.range' vid ((componentLoop C t n vid s).2.1 - vid) ∧
      (componentLoop C t n vid s).2.2.log.countP Event.isFieldRead
        = s.log.countP Event.isFieldRead + ((componentLoop C t n vid s).2.1 - vid) ∧
      ∀ x, (x < vid ∨ (componentLoop C t n vid s).2.1 ≤ x) →
        (componentLoop C t n vid s).2.2.out x = s.out x
  | 0, vid, s => by simp [componentLoop]
  | n + 1, vid, s => by
    rw [componentLoop]
    rcases hr : C.decodeLSB32 t s.buf with ⟨_ | val, b⟩
    · simp [St.step, writtenIndices, List.countP_append, List.countP_cons, Event.isFieldRead]
    · simp only []
      obtain ⟨h1, h2, h3, h4⟩ := componentLoop_progress C t n (vid + 1)
        ((s.step b (Event.readBits t (some val))).store vid val)
      have e : (componentLoop C t n (vid + 1)
          ((s.step b (Event.readBits t (some val))).store vid val)).2.1 - vid
          = ((componentLoop C t n (vid + 1)
          ((s.step b (Event.readBits t (some val))).store vid val)).2.1 - (vid + 1)) + 1 := by
        omega
      refine ⟨by omega, ?_, ?_, ?_⟩
      · rw [h2, e, List.range'_succ]
        simp [St.step, St.store, writtenIndices, List.filterMap_append]
      · rw [h3, e]
        simp [St.step, St.store, List.countP_append, List.countP_cons, Event.isFieldRead]
        omega
      · intro x hx
        rw [h4 x (by omega)]
        have hne : x ≠ vid := by omega
        simp [St.step, St.store, Function.update_noteq hne]

theorem taggedGroup_parts {β δ : Type} (C : Collab β δ) (nc : Int) (L : TagLoop β δ) :
    (taggedGroup C nc L).1
      = (componentLoop C (C.decodeSymbol L.dec).1 nc.toNat L.value_id
          (L.st.step L.st.buf (Event.decodeSymbol (C.decodeSymbol L.dec).1))).1 ∧
    (taggedGroup C nc L).2.value_id
      = (componentLoop C (C.decodeSymbol L.dec).1 nc.toNat L.value_id
          (L.st.step L.st.buf (Event.decodeSymbol (C.decodeSymbol L.dec).1))).2.1 ∧
    (taggedGroup C nc L).2.st
      = (componentLoop C (C.decodeSymbol L.dec).1 nc.toNat L.value_id
          (L.st.step L.st.buf (Event.decodeSymbol (C.decodeSymbol L.dec).1))).2.2 ∧
    (taggedGroup C nc L).2.dec = (C.decodeSymbol L.dec).2 := by
  unfold taggedGroup
  simp only []
  rcases hcl : componentLoop C (C.decodeSymbol L.dec).1 nc.toNat L.value_id
      (L.st.step L.st.buf (Event.decodeSymbol (C.decodeSymbol L.dec).1)) with ⟨_ | _, vid, s1⟩
  · exact ⟨rfl, rfl, rfl, rfl⟩
  · exact ⟨rfl, rfl, rfl, rfl⟩

theorem taggedGroup_countP {β δ : Type} (C : Collab β δ) (nc : Int) (L : TagLoop β δ)
    (p : Event → Bool) (hp0 : ∀ v, p (Event.decodeSymbol v) = false)
    (hp1 : ∀ n v, p (Event.readBits n v) = false) (hp2 : ∀ i v, p (Event.write i v) = false) :
    (taggedGroup C nc L).2.st.log.countP p = L.st.log.countP p := by
  rw [(taggedGroup_parts C nc L).2.2.1, componentLoop_countP C _ p hp1 hp2]
  simp [St.step, List.countP_append, List.countP_cons, hp0]

theorem taggedGroup_countP_decode {β δ : Type} (C : Collab β δ) (nc : Int) (L : TagLoop β δ) :
    (taggedGroup C nc L).2.st.log.countP Event.isDecodeSymbol
      = L.st.log.countP Event.isDecodeSymbol + 1 := by
  rw [(taggedGroup_parts C nc L).2.2.1, componentLoop_countP C _ Event.isDecodeSymbol
    (fun _ _ => rfl) (fun _ _ => rfl)]
  simp [St.step, List.countP_append, List.countP_cons, Event.isDecodeSymbol]

theorem taggedGroup_progress {β δ : Type} (C : Collab β δ) (nc : Int) (L : TagLoop β δ) :
    L.value_id ≤ (taggedGroup C nc L).2.value_id ∧
    writtenIndices (taggedGroup C nc L).2.st.log
      = writtenIndices L.st.log
        ++ List.range' L.value_id ((taggedGroup C nc L).2.value_id - L.value_id) ∧
    (taggedGroup C nc L).2.st.log.countP Event.isFieldRead
      = L.st.log.countP Event.isFieldRead + ((taggedGroup C nc L).2.value_id - L.value_id) ∧
    ∀ x, (x < L.value_id ∨ (taggedGroup C nc L).2.value_id ≤ x) →
      (taggedGroup C nc L).2.st.out x = L.st.out x := by
  obtain ⟨_, e1, e2, _⟩ := taggedGroup_parts C nc L
  obtain ⟨h1, h2, h3, h4⟩ := componentLoop_progress C (C.decodeSymbol L.dec).1 nc.toNat
    L.value_id (L.st.step L.st.buf (Event.decodeSymbol (C.decodeSymbol L.dec).1))
  rw [e1, e2]
  refine ⟨h1, ?_, ?_, ?_⟩
  · rw [h2]
    simp [St.step, writtenIndices, List.filterMap_append]
  · rw [h3]
    simp [St.step, List.countP_append, List.countP_cons, Event.isFieldRead]
  · intro x hx
    rw [h4 x hx]
    simp [St.step]

theorem taggedLoop_countP {β δ : Type} (C : Collab β δ) (nv nc : Int)
    (p : Event → Bool) (hp0 : ∀ v, p (Event.decodeSymbol v) = false)
    (hp1 : ∀ n v, p (Event.readBits n v) = false) (hp2 : ∀ i v, p (Event.write i v) = false) :
    ∀ (fuel : Nat) (L : TagLoop β δ) (r : Bool × TagLoop β δ),
      taggedLoop C nv nc fuel L = some r → r.2.st.log.countP p = L.st.log.countP p
  | 0, L, r, h => by
    by_cases hi : L.i < nv
    · simp [taggedLoop, hi] at h
    · simp only [taggedLoop, hi, if_false, Option.some.injEq] at h
      subst h
      rfl
  | fuel + 1, L, r, h => by
    by_cases hi : L.i < nv
    · rw [taggedLoop, if_pos hi] at h
      have hg := taggedGroup_countP C nc L p hp0 hp1 hp2
      rcases hgr : taggedGroup C nc L with ⟨_ | _, L0⟩
      · rw [hgr] at h hg
        simp only [Option.some.injEq] at h
        subst h
        exact hg
      · rw [hgr] at h hg
        simp only [] at h
        rw [taggedLoop_countP C nv nc p hp0 hp1 hp2 fuel L0 r h]
        exact hg
    · simp only [taggedLoop, hi, if_false, Option.some.injEq] at h
      subst h
      rfl

theorem taggedLoop_progress {β δ : Type} (C : Collab β δ) (nv nc : Int) :
    ∀ (fuel : Nat) (L : TagLoop β δ) (r : Bool × TagLoop β δ),
      taggedLoop C nv nc fuel L = some r →
      L.value_id ≤ r.2.value_id ∧
      writtenIndices r.2.st.log
        = writtenIndices L.st.log ++ List.range' L.value_id (r.2.value_id - L.value_id) ∧
      r.2.st.log.countP Event.isFieldRead
        = L.st.log.countP Event.isFieldRead + (r.2.value_id - L.value_id) ∧
      ∀ x, (x < L.value_id ∨ r.2.value_id ≤ x) → r.2.st.out x = L.st.out x
  | 0, L, r, h => by
    by_cases hi : L.i < nv
    · simp [taggedLoop, hi] at h
    · simp only [taggedLoop, hi, if_false, Option.some.injEq] at h
      subst h
      simp
  | fuel + 1, L, r, h => by
    by_cases hi : L.i < nv
    · rw [taggedLoop, if_pos hi] at h
      have hg := taggedGroup_progress C nc L
      rcases hgr : taggedGroup C nc L with ⟨_ | _, L0⟩
      · rw [hgr] at h hg
        simp only [Option.some.injEq] at h
        subst h
        exact hg
      · rw [hgr] at h hg
        simp only [] at h hg
        obtain ⟨g1, g2, g3, g4⟩ := hg
        obtain ⟨r1, r2, r3, r4⟩ := taggedLoop_progress C nv nc fuel L0 r h
        have e : r.2.value_id - L.value_id
            = (r.2.value_id - L0.value_id) + (L0.value_id - L.value_id) := by omega
        have e0 : L0.value_id = L.value_id + (L0.value_id - L.value_id) := by omega
        refine ⟨by omega, ?_, ?_, ?_⟩
        · rw [r2, g2, e, List.append_assoc]
          congr 1
          rw [← List.range'_append_1, ← e0]
        · rw [r3, g3]
          omega
        · intro x hx
          rw [r4 x (by omega), g4 x (by omega)]
    · simp only [taggedLoop, hi, if_false, Option.some.injEq] at h
      subst h
      simp

theorem taggedLoop_decode_bound {β δ : Type} (C : Collab β δ) (nv nc : Int) (hc : 1 ≤ nc) :
    ∀ (fuel : Nat) (L : TagLoop β δ) (r : Bool × TagLoop β δ),
      taggedLoop C nv nc fuel L = some r →
      r.2.st.log.countP Event.isDecodeSymbol
        ≤ L.st.log.countP Event.isDecodeSymbol + numGroups (nv - L.i) nc
  | 0, L, r, h => by
    by_cases hi : L.i < nv
    · simp [taggedLoop, hi] at h
    · simp only [taggedLoop, hi, if_false, Option.some.injEq] at h
      subst h
      simp
  | fuel + 1, L, r, h => by
    by_cases hi : L.i < nv
    · rw [taggedLoop, if_pos hi] at h
      have hg := taggedGroup_countP_decode C nc L
      have hG := numGroups_of_pos (nv - L.i) nc (by omega) hc
      rcases hgr : taggedGroup C nc L with ⟨_ | _, L0⟩
      · rw [hgr] at h hg
        simp only [Option.some.injEq] at h
        subst h
        simp only [] at hg ⊢
        omega
      · obtain ⟨g1, _⟩ := taggedGroup_success C nc L L0 hgr
        rw [hgr] at h hg
        simp only [] at h hg
        have ih := taggedLoop_decode_bound C nv nc hc fuel L0 r h
        have e : nv - L0.i = nv - L.i - nc := by rw [g1]; ring
        rw [e] at ih
        omega
    · simp only [taggedLoop, hi, if_false, Option.some.injEq] at h
      subst h
      simp

theorem DecodeTaggedSymbols_cases {β δ : Type} (C : Collab β δ) (fuel : Nat) (nv nc : Int)
    (s : St β) (r : Bool × St β) (h : DecodeTaggedSymbols C fuel nv nc s = some r) :
    (∃ pre, (pre = [Event.create 5 false] ∨
          pre = [Event.create 5 true, Event.startDecoding false] ∨
          pre = [Event.create 5 true, Event.startDecoding true]) ∧
        r.1 = false ∧ r.2.out = s.out ∧ r.2.log = s.log ++ pre) ∨
    (∃ d1 b r0,
      taggedLoop C nv nc fuel
        { i := 0, value_id := 0, dec := d1,
          st := { buf := b, out := s.out,
                  log := s.log ++ [Event.create 5 true, Event.startDecoding true,
                                   Event.startBitDecoding] } } = some r0 ∧
      ((r0.1 = false ∧ r = (false, r0.2.st)) ∨
       (r0.1 = true ∧ r.1 = true ∧ r.2.out = r0.2.st.out ∧
        r.2.log = r0.2.st.log ++ [Event.endDecoding, Event.endBitDecoding]))) := by
  rcases hcr : C.create 5 s.buf with ⟨_ | _, d0, b0⟩
  · simp only [DecodeTaggedSymbols, hcr, Option.some.injEq] at h
    subst h
    exact Or.inl ⟨_, Or.inl rfl, rfl, rfl, rfl⟩
  rcases hst : C.startDecoding d0 b0 with ⟨_ | _, d1, b1⟩
  · simp only [DecodeTaggedSymbols, hcr, hst, Option.some.injEq] at h
    subst h
    exact Or.inl ⟨_, Or.inr (Or.inl rfl), rfl, rfl, by simp [St.step]⟩
  by_cases hn : nv > 0 ∧ C.numSymbols d1 = 0
  · simp only [DecodeTaggedSymbols, hcr, hst, if_pos hn, Option.some.injEq] at h
    subst h
    exact Or.inl ⟨_, Or.inr (Or.inr rfl), rfl, rfl, by simp [St.step]⟩
  simp only [DecodeTaggedSymbols, hcr, hst, hn, if_false] at h
  have hinit : ((s.step b0 (Event.create 5 true)).step b1 (Event.startDecoding true)).step
      (C.startBitDecoding b1) Event.startBitDecoding
      = { buf := C.startBitDecoding b1, out := s.out,
          log := s.log ++ [Event.create 5 true, Event.startDecoding true,
                           Event.startBitDecoding] } := by
    simp [St.step]
  rw [hinit] at h
  rcases hl : taggedLoop C nv nc fuel
      { i := 0, value_id := 0, dec := d1,
        st := { buf := C.startBitDecoding b1, out := s.out,
                log := s.log ++ [Event.create 5 true, Event.startDecoding true,
                                 Event.startBitDecoding] } } with _ | ⟨_ | _, L⟩
  · simp [hl] at h
  · simp only [hl, Option.some.injEq] at h
    subst h
    exact Or.inr ⟨d1, _, _, hl, Or.inl ⟨rfl, rfl⟩⟩
  · simp only [hl, Option.some.injEq] at h
    subst h
    exact Or.inr ⟨d1, _, _, hl, Or.inr ⟨rfl, rfl, rfl, by simp [St.step]⟩⟩

theorem DecodeTaggedSymbols_failure_summary {β δ : Type} (C : Collab β δ) (fuel : Nat)
    (nv nc : Int) (s s1 : St β) (h : DecodeTaggedSymbols C fuel nv nc s = some (false, s1)) :
    s1.log.countP Event.isEndBit = s.log.countP Event.isEndBit ∧
    ∃ k, writtenIndices s1.log = writtenIndices s.log ++ List.range k ∧
      s1.log.countP Event.isFieldRead = s.log.countP Event.isFieldRead + k ∧
      ∀ x, k ≤ x → s1.out x = s.out x := by
  rcases DecodeTaggedSymbols_cases C fuel nv nc s _ h with
    ⟨pre, hpre, _, hout, hlog⟩ | ⟨d1, b, r0, hl, hcase⟩
  · simp only [] at hout hlog
    rcases hpre with rfl | rfl | rfl <;>
    · refine ⟨by simp [hlog, List.countP_append, List.countP_cons, Event.isEndBit],
        0, by simp [hlog, writtenIndices, List.filterMap_append],
        by simp [hlog, List.countP_append, List.countP_cons, Event.isFieldRead], ?_⟩
      intro x _
      rw [hout]
  · rcases hcase with ⟨_, hr⟩ | ⟨_, ht, _⟩
    · have hs1 : s1 = r0.2.st := by
        have := congrArg Prod.snd hr
        simpa using this
      obtain ⟨p1, p2, p3, p4⟩ := taggedLoop_progress C nv nc fuel _ r0 hl
      have pc := taggedLoop_countP C nv nc Event.isEndBit (fun _ => rfl) (fun _ _ => rfl)
        (fun _ _ => rfl) fuel _ r0 hl
      simp only [Nat.sub_zero] at p2 p3 p4
      rw [hs1]
      refine ⟨?_, r0.2.value_id, ?_, ?_, ?_⟩
      · rw [pc]
        simp [List.countP_append, List.countP_cons, Event.isEndBit]
      · rw [p2, List.range_eq_range']
        simp [writtenIndices, List.filterMap_append]
      · rw [p3]
        simp [List.countP_append, List.countP_cons, Event.isFieldRead]
      · intro x hx
        exact p4 x (Or.inr hx)
    · simp at ht

theorem DecodeTaggedSymbols_success_summary {β δ : Type} (C : Collab β δ) (fuel : Nat)
    (nv nc : Int) (s s1 : St β) (h : DecodeTaggedSymbols C fuel nv nc s = some (true, s1)) :
    s1.log.countP Event.isStartBit = s.log.countP Event.isStartBit + 1 ∧
    s1.log.countP Event.isEndBit = s.log.countP Event.isEndBit + 1 ∧
    ∃ pre, s1.log = pre ++ [Event.endDecoding, Event.endBitDecoding] := by
  rcases DecodeTaggedSymbols_cases C fuel nv nc s _ h with
    ⟨pre, _, hf, _⟩ | ⟨d1, b, r0, hl, hcase⟩
  · simp at hf
  · rcases hcase with ⟨_, hr⟩ | ⟨_, _, _, hlog⟩
    · have := congrArg Prod.fst hr
      simp at this
    · simp only [] at hlog
      have pc1 := taggedLoop_countP C nv nc Event.isStartBit (fun _ => rfl) (fun _ _ => rfl)
        (fun _ _ => rfl) fuel _ r0 hl
      have pc2 := taggedLoop_countP C nv nc Event.isEndBit (fun _ => rfl) (fun _ _ => rfl)
        (fun _ _ => rfl) fuel _ r0 hl
      refine ⟨?_, ?_, r0.2.st.log, hlog⟩
      · rw [hlog, List.countP_append, pc1]
        simp [List.countP_append, List.countP_cons, Event.isStartBit]
      · rw [hlog, List.countP_append, pc2]
        simp [List.countP_append, List.countP_cons, Event.isEndBit]

theorem DecodeTaggedSymbols_decode_bound {β δ : Type} (C : Collab β δ) (fuel : Nat)
    (nv nc : Int) (s : St β) (r : Bool × St β) (hc : 1 ≤ nc)
    (h : DecodeTaggedSymbols C fuel nv nc s = some r) :
    r.2.log.countP Event.isDecodeSymbol
      ≤ s.log.countP Event.isDecodeSymbol + numGroups nv nc := by
  rcases DecodeTaggedSymbols_cases C fuel nv nc s _ h with
    ⟨pre, hpre, _, _, hlog⟩ | ⟨d1, b, r0, hl, hcase⟩
  · rcases hpre with rfl | rfl | rfl <;>
    · simp [hlog, List.countP_append, List.countP_cons, Event.isDecodeSymbol]
  · have pb := taggedLoop_decode_bound C nv nc hc fuel _ r0 hl
    simp only [Int.sub_zero, List.countP_append] at pb
    have e0 : List.countP Event.isDecodeSymbol
        [Event.create 5 true, Event.startDecoding true, Event.startBitDecoding] = 0 := by
      simp [List.countP_cons, Event.isDecodeSymbol]
    rcases hcase with ⟨_, hr⟩ | ⟨_, _, _, hlog⟩
    · rw [hr]
      simp only []
      omega
    · rw [hlog, List.countP_append]
      have e1 : List.countP Event.isDecodeSymbol [Event.endDecoding, Event.endBitDecoding]
          = 0 := by
        simp [List.countP_cons, Event.isDecodeSymbol]
      omega

/-- C13, evaluated where it fails: over `demoTruncatedStream` with two values in
groups of one, the second bit-field read fails and the function returns `false`
at once. `StartBitDecoding` has been called once; `EndBitDecoding` (and
`EndDecoding`) are never called. -/
theorem DecodeTaggedSymbols_failure_skips_EndBitDecoding :
    (DecodeTaggedSymbols demo 2 2 1 (demoSt demoTruncatedStream)).map
        (fun r => (r.1, r.2.log))
      = some (false,
          [Event.create 5 true, Event.startDecoding true, Event.startBitDecoding,
           Event.decodeSymbol 3, Event.readBits 3 (some 6), Event.write 0 6,
           Event.decodeSymbol 5, Event.readBits 5 none]) ∧
    (DecodeTaggedSymbols demo 2 2 1 (demoSt demoTruncatedStream)).map
        (fun r => (r.2.log.countP Event.isStartBit, r.2.log.countP Event.isEndBit))
      = some (1, 0) := by
  constructor <;> decide

/-! ## Raw path: what any run records -/

theorem DecodeRawSymbols_cases {β δ : Type} (C : Collab β δ) (nv : Int) (s : St β) :
    (∃ v b, C.decodeU8 s.buf = (v, b) ∧
      DecodeRawSymbols C nv s = (false, s.step b (Event.readByte v))) ∨
    (∃ w b, C.decodeU8 s.buf = (some w, b) ∧
      DecodeRawSymbols C nv s
        = DecodeRawSymbolsInternal C w nv (s.step b (Event.readByte (some w)))) := by
  rcases hb : C.decodeU8 s.buf with ⟨_ | w, b⟩
  · exact Or.inl ⟨none, b, rfl, by simp only [DecodeRawSymbols, hb]⟩
  · simp only [DecodeRawSymbols, hb]
    split <;> first
      | exact Or.inr ⟨_, b, rfl, rfl⟩
      | exact Or.inl ⟨_, b, rfl, rfl⟩

theorem DecodeRawSymbolsInternal_failure {β δ : Type} (C : Collab β δ) (w : Nat) (nv : Int)
    (s : St β) (h : (DecodeRawSymbolsInternal C w nv s).1 = false) :
    (DecodeRawSymbolsInternal C w nv s).2.out = s.out ∧
    writtenIndices (DecodeRawSymbolsInternal C w nv s).2.log = writtenIndices s.log ∧
    (DecodeRawSymbolsInternal C w nv s).2.log.countP Event.isFieldRead
      = s.log.countP Event.isFieldRead := by
  rcases hc : C.create w s.buf with ⟨_ | _, d0, b0⟩
  · simp [DecodeRawSymbolsInternal, hc, St.step, writtenIndices, List.filterMap_append,
      List.countP_append, List.countP_cons, Event.isFieldRead]
  by_cases hn : nv > 0 ∧ C.numSymbols d0 = 0
  · simp [DecodeRawSymbolsInternal, hc, if_pos hn, St.step, writtenIndices,
      List.filterMap_append, List.countP_append, List.countP_cons, Event.isFieldRead]
  rcases hst : C.startDecoding d0 b0 with ⟨_ | _, d1, b1⟩
  · simp [DecodeRawSymbolsInternal, hc, if_neg hn, hst, St.step, writtenIndices,
      List.filterMap_append, List.countP_append, List.countP_cons, Event.isFieldRead]
  · simp [DecodeRawSymbolsInternal, hc, if_neg hn, hst] at h

theorem DecodeRawSymbols_failure {β δ : Type} (C : Collab β δ) (nv : Int)
    (s : St β) (h : (DecodeRawSymbols C nv s).1 = false) :
    (DecodeRawSymbols C nv s).2.out = s.out ∧
    writtenIndices (DecodeRawSymbols C nv s).2.log = writtenIndices s.log ∧
    (DecodeRawSymbols C nv s).2.log.countP Event.isFieldRead
      = s.log.countP Event.isFieldRead := by
  rcases DecodeRawSymbols_cases C nv s with ⟨v, b, _, hr⟩ | ⟨w, b, _, hr⟩
  · rw [hr]
    simp [St.step, writtenIndices, List.filterMap_append, List.countP_append,
      List.countP_cons, Event.isFieldRead]
  · rw [hr] at h ⊢
    obtain ⟨h1, h2, h3⟩ := DecodeRawSymbolsInternal_failure C w nv _ h
    rw [h1, h2, h3]
    simp [St.step, writtenIndices, List.filterMap_append, List.countP_append,
      List.countP_cons, Event.isFieldRead]

/-! ## Dispatcher: failing calls -/

/-- C14: on every failing call of `DecodeSymbols` the slots written are exactly
the prefix `[0, k)`, written in order, where `k` is the number of bit fields
successfully read during the call, and every slot at an index `≥ k` keeps its
previous value; when the failure is in the dispatcher or in the raw scheme (the
count is negative, or the selector is unreadable or is not 0) nothing is written
and the output buffer is entirely unchanged. -/
theorem DecodeSymbols_failure_writes {β δ : Type} (C : Collab β δ) (fuel : Nat)
    (num_values num_components : Int) (s s1 : St β)
    (h : DecodeSymbols C fuel num_values num_components s = some (false, s1)) :
    (∃ k, writtenIndices s1.log = writtenIndices s.log ++ List.range k ∧
      s1.log.countP Event.isFieldRead = s.log.countP Event.isFieldRead + k ∧
      ∀ x, k ≤ x → s1.out x = s.out x) ∧
    ((num_values < 0 ∨ ∀ b, C.decodeU8 s.buf ≠ (some 0, b)) →
      writtenIndices s1.log = writtenIndices s.log ∧
      s1.log.countP Event.isFieldRead = s.log.countP Event.isFieldRead ∧
      s1.out = s.out) := by
  have hnone : ∀ (Q : Prop) (s2 : St β), writtenIndices s2.log = writtenIndices s.log →
      s2.log.countP Event.isFieldRead = s.log.countP Event.isFieldRead → s2.out = s.out →
      (∃ k, writtenIndices s2.log = writtenIndices s.log ++ List.range k ∧
        s2.log.countP Event.isFieldRead = s.log.countP Event.isFieldRead + k ∧
        ∀ x, k ≤ x → s2.out x = s.out x) ∧
      (Q →
        writtenIndices s2.log = writtenIndices s.log ∧
        s2.log.countP Event.isFieldRead = s.log.countP Event.isFieldRead ∧
        s2.out = s.out) := by
    intro Q s2 a1 a2 a3
    exact ⟨⟨0, by simp [a1], by simp [a2], fun x _ => by rw [a3]⟩, fun _ => ⟨a1, a2, a3⟩⟩
  by_cases h0 : num_values < 0
  · simp only [DecodeSymbols, if_pos h0, Option.some.injEq, Prod.mk.injEq, true_and] at h
    subst h
    exact hnone _ s rfl rfl rfl
  by_cases h1 : num_values = 0
  · simp [DecodeSymbols, if_neg h0, if_pos h1] at h
  rcases hb : C.decodeU8 s.buf with ⟨_ | scheme, b⟩
  · simp only [DecodeSymbols, if_neg h0, if_neg h1, hb, Option.some.injEq, Prod.mk.injEq,
      true_and] at h
    subst h
    exact hnone _ (s.step b (Event.readByte none))
      (by simp [St.step, writtenIndices, List.filterMap_append])
      (by simp [St.step, List.countP_append, List.countP_cons, Event.isFieldRead]) rfl
  have hw0 : writtenIndices (s.step b (Event.readByte (some scheme))).log
      = writtenIndices s.log := by
    simp [St.step, writtenIndices, List.filterMap_append]
  have hf0 : (s.step b (Event.readByte (some scheme))).log.countP Event.isFieldRead
      = s.log.countP Event.isFieldRead := by
    simp [St.step, List.countP_append, List.countP_cons, Event.isFieldRead]
  have ho0 : (s.step b (Event.readByte (some scheme))).out = s.out := rfl
  by_cases e0 : scheme = 0
  · subst e0
    simp only [DecodeSymbols, if_neg h0, if_neg h1, hb, if_true] at h
    obtain ⟨_, k, k1, k2, k3⟩ := DecodeTaggedSymbols_failure_summary C fuel num_values
      num_components _ s1 h
    rw [hw0] at k1
    rw [hf0] at k2
    rw [ho0] at k3
    refine ⟨⟨k, k1, k2, k3⟩, ?_⟩
    rintro (hneg | hsel)
    · exact absurd hneg h0
    · exact absurd rfl (hsel b)
  by_cases e1 : scheme = 1
  · subst e1
    simp only [DecodeSymbols, if_neg h0, if_neg h1, hb, if_neg e0, if_true,
      Option.some.injEq] at h
    have hfail : (DecodeRawSymbols C num_values (s.step b (Event.readByte (some 1)))).1
        = false := by rw [h]
    obtain ⟨r1, r2, r3⟩ := DecodeRawSymbols_failure C num_values _ hfail
    rw [h] at r1 r2 r3
    simp only [] at r1 r2 r3
    exact hnone _ s1 (r2.trans hw0) (r3.trans hf0) (r1.trans ho0)
  · simp only [DecodeSymbols, if_neg h0, if_neg h1, hb, if_neg e0, if_neg e1,
      Option.some.injEq, Prod.mk.injEq, true_and] at h
    subst h
    exact hnone _ _ hw0 hf0 ho0

/-- Instance of C14: the tagged scheme over `demoTruncatedStream`; one bit field
is read before the failing read, so exactly slot 0 is written. -/
theorem DecodeSymbols_failure_writes_witness :
    ∃ s1, DecodeSymbols demo 2 2 1 (demoSt (0 :: demoTruncatedStream)) = some (false, s1) ∧
      writtenIndices s1.log = [0] ∧
      ∃ k, writtenIndices s1.log
          = writtenIndices (demoSt (0 :: demoTruncatedStream)).log ++ List.range k ∧
        s1.log.countP Event.isFieldRead
          = (demoSt (0 :: demoTruncatedStream)).log.countP Event.isFieldRead + k ∧
        ∀ x, k ≤ x → s1.out x = (demoSt (0 :: demoTruncatedStream)).out x := by
  have hrun : ∃ s1, DecodeSymbols demo 2 2 1 (demoSt (0 :: demoTruncatedStream))
      = some (false, s1) ∧ writtenIndices s1.log = [0] := ⟨_, rfl, by decide⟩
  obtain ⟨s1, h1, h2⟩ := hrun
  exact ⟨s1, h1, h2,
    (DecodeSymbols_failure_writes demo 2 2 1 (demoSt (0 :: demoTruncatedStream)) s1 h1).1⟩

/-! ## Termination -/

theorem taggedLoop_mono {β δ : Type} (C : Collab β δ) (nv nc : Int) :
    ∀ (fuel : Nat) (L : TagLoop β δ) (r : Bool × TagLoop β δ),
      taggedLoop C nv nc fuel L = some r →
      ∀ fuel2, fuel ≤ fuel2 → taggedLoop C nv nc fuel2 L = some r
  | 0, L, r, h, fuel2, _ => by
    by_cases hi : L.i < nv
    · simp [taggedLoop, hi] at h
    · cases fuel2 with
      | zero => exact h
      | succ f2 =>
        simp only [taggedLoop, hi, if_false] at h ⊢
        exact h
  | fuel + 1, L, r, h, fuel2, hle => by
    cases fuel2 with
    | zero => omega
    | succ f2 =>
      by_cases hi : L.i < nv
      · rw [taggedLoop, if_pos hi] at h ⊢
        rcases hgr : taggedGroup C nc L with ⟨_ | _, L0⟩
        · rw [hgr] at h
          exact h
        · rw [hgr] at h
          simp only [] at h ⊢
          exact taggedLoop_mono C nv nc fuel L0 r h f2 (by omega)
      · simp only [taggedLoop, hi, if_false] at h ⊢
        exact h

theorem DecodeTaggedSymbols_mono {β δ : Type} (C : Collab β δ) (nv nc : Int) (s : St β)
    (fuel fuel2 : Nat) (r : Bool × St β) (hle : fuel ≤ fuel2)
    (h : DecodeTaggedSymbols C fuel nv nc s = some r) :
    DecodeTaggedSymbols C fuel2 nv nc s = some r := by
  rcases hcr : C.create 5 s.buf with ⟨_ | _, d0, b0⟩
  · simp only [DecodeTaggedSymbols, hcr] at h ⊢
    exact h
  rcases hst : C.startDecoding d0 b0 with ⟨_ | _, d1, b1⟩
  · simp only [DecodeTaggedSymbols, hcr, hst] at h ⊢
    exact h
  by_cases hn : nv > 0 ∧ C.numSymbols d1 = 0
  · simp only [DecodeTaggedSymbols, hcr, hst, if_pos hn] at h ⊢
    exact h
  simp only [DecodeTaggedSymbols, hcr, hst, if_neg hn] at h ⊢
  rcases hl : taggedLoop C nv nc fuel
      { i := 0, value_id := 0, dec := d1,
        st := ((s.step b0 (Event.create 5 true)).step b1 (Event.startDecoding true)).step
          (C.startBitDecoding b1) Event.startBitDecoding } with _ | r0
  · simp [hl] at h
  · rw [hl] at h
    rw [taggedLoop_mono C nv nc fuel _ r0 hl fuel2 hle]
    exact h

theorem DecodeRawSymbolsInternal_decode_count {β δ : Type} (C : Collab β δ) (w : Nat)
    (nv : Int) (s : St β) :
    (DecodeRawSymbolsInternal C w nv s).2.log.countP Event.isDecodeSymbol
      ≤ s.log.countP Event.isDecodeSymbol + nv.toNat := by
  rcases hc : C.create w s.buf with ⟨_ | _, d0, b0⟩
  · simp [DecodeRawSymbolsInternal, hc, St.step, List.countP_append, List.countP_cons,
      Event.isDecodeSymbol]
  by_cases hn : nv > 0 ∧ C.numSymbols d0 = 0
  · simp [DecodeRawSymbolsInternal, hc, if_pos hn, St.step, List.countP_append,
      List.countP_cons, Event.isDecodeSymbol]
  rcases hst : C.startDecoding d0 b0 with ⟨_ | _, d1, b1⟩
  · simp [DecodeRawSymbolsInternal, hc, if_neg hn, hst, St.step, List.countP_append,
      List.countP_cons, Event.isDecodeSymbol]
  · have hcd : ∀ g, List.countP Event.isDecodeSymbol
        [Event.decodeSymbol (nthSymbol C d1 g), Event.write (0 + g) (nthSymbol C d1 g)]
        = 1 := by
      intro g
      simp [List.countP_cons, Event.isDecodeSymbol]
    simp only [DecodeRawSymbolsInternal, hc, if_neg hn, hst, rawLoop_eq, St.step,
      List.countP_append, countP_flatMap_range Event.isDecodeSymbol _ 1 hcd]
    simp [List.countP_cons, Event.isDecodeSymbol]

theorem DecodeRawSymbols_decode_count {β δ : Type} (C : Collab β δ) (nv : Int) (s : St β) :
    (DecodeRawSymbols C nv s).2.log.countP Event.isDecodeSymbol
      ≤ s.log.countP Event.isDecodeSymbol + nv.toNat := by
  rcases DecodeRawSymbols_cases C nv s with ⟨v, b, _, hr⟩ | ⟨w, b, _, hr⟩
  · rw [hr]
    simp [St.step, List.countP_append, List.countP_cons, Event.isDecodeSymbol]
  · rw [hr]
    have h1 := DecodeRawSymbolsInternal_decode_count C w nv (s.step b (Event.readByte (some w)))
    have h2 : (s.step b (Event.readByte (some w))).log.countP Event.isDecodeSymbol
        = s.log.countP Event.isDecodeSymbol := by
      simp [St.step, List.countP_append, List.countP_cons, Event.isDecodeSymbol]
    omega

/-- C15: for every `num_values`, every `num_components ≥ 1` and every stream the
call of `DecodeSymbols` returns: a bound of `ceil(num_values / num_components)`
iterations of the group loop is enough, and a larger bound gives the same result.
In any run of the tagged path at most `ceil(num_values / num_components)` tags
are decoded (one per group iteration, and a completed iteration raises `i` by
`num_components`, so strictly); in any run of the raw path at most `num_values`
symbols are decoded. -/
theorem DecodeSymbols_terminates {β δ : Type} (C : Collab β δ)
    (num_values num_components : Int) (s : St β) (hc : 1 ≤ num_components) :
    (∀ fuel, numGroups num_values num_components ≤ fuel →
      ∃ r, DecodeSymbols C fuel num_values num_components s = some r) ∧
    (∀ fuel fuel2 r, fuel ≤ fuel2 →
      DecodeSymbols C fuel num_values num_components s = some r →
      DecodeSymbols C fuel2 num_values num_components s = some r) ∧
    (∀ fuel r, DecodeTaggedSymbols C fuel num_values num_components s = some r →
      r.2.log.countP Event.isDecodeSymbol
        ≤ s.log.countP Event.isDecodeSymbol + numGroups num_values num_components) ∧
    (∀ L L1 : TagLoop β δ, taggedGroup C num_components L = (true, L1) →
      L1.i = L.i + num_components ∧ L.i < L1.i) ∧
    ((DecodeRawSymbols C num_values s).2.log.countP Event.isDecodeSymbol
      ≤ s.log.countP Event.isDecodeSymbol + num_values.toNat) := by
  refine ⟨?_, ?_, ?_, ?_, DecodeRawSymbols_decode_count C num_values s⟩
  · intro fuel hf
    unfold DecodeSymbols
    by_cases h0 : num_values < 0
    · exact ⟨_, by rw [if_pos h0]⟩
    by_cases h1 : num_values = 0
    · exact ⟨_, by rw [if_neg h0, if_pos h1]⟩
    rw [if_neg h0, if_neg h1]
    rcases hb : C.decodeU8 s.buf with ⟨_ | scheme, b⟩
    · exact ⟨_, rfl⟩
    · simp only []
      by_cases e0 : scheme = 0
      · rw [if_pos e0]
        exact DecodeTaggedSymbols_terminates C fuel num_values num_components _ hc hf
      · rw [if_neg e0]
        by_cases e1 : scheme = 1
        · exact ⟨_, by rw [if_pos e1]⟩
        · exact ⟨_, by rw [if_neg e1]⟩
  · intro fuel fuel2 r hle h
    unfold DecodeSymbols at h ⊢
    by_cases h0 : num_values < 0
    · rw [if_pos h0] at h ⊢
      exact h
    by_cases h1 : num_values = 0
    · rw [if_neg h0, if_pos h1] at h ⊢
      exact h
    rw [if_neg h0, if_neg h1] at h ⊢
    rcases hb : C.decodeU8 s.buf with ⟨_ | scheme, b⟩
    · rw [hb] at h
      exact h
    · rw [hb] at h
      simp only [] at h ⊢
      by_cases e0 : scheme = 0
      · rw [if_pos e0] at h ⊢
        exact DecodeTaggedSymbols_mono C num_values num_components _ fuel fuel2 r hle h
      · rw [if_neg e0] at h ⊢
        exact h
  · intro fuel r h
    exact DecodeTaggedSymbols_decode_bound C fuel num_values num_components s r hc h
  · intro L L1 h
    obtain ⟨g1, _⟩ := taggedGroup_success C num_components L L1 h
    exact ⟨g1, by omega⟩

/-- Instance of C15: six values in groups of two through the dispatcher; three
iterations are enough for the call to return. -/
theorem DecodeSymbols_terminates_witness :
    (1 : Int) ≤ 2 ∧ numGroups 6 2 ≤ 3 ∧
    ∃ r, DecodeSymbols demo 3 6 2 (demoSt (0 :: demoTaggedStream)) = some r :=
  ⟨by decide, by decide,
   (DecodeSymbols_terminates demo 6 2 (demoSt (0 :: demoTaggedStream)) (by decide)).1 3
     (by decide)⟩

/-! ## Zero components -/

theorem taggedGroup_zero {β δ : Type} (C : Collab β δ) (L : TagLoop β δ) :
    taggedGroup C 0 L
      = (true, { i := L.i + 0, value_id := L.value_id, dec := (C.decodeSymbol L.dec).2,
                 st := L.st.step L.st.buf (Event.decodeSymbol (C.decodeSymbol L.dec).1) }) := by
  simp [taggedGroup, componentLoop]

theorem taggedIter_zero {β δ : Type} (C : Collab β δ) (L : TagLoop β δ) :
    ∀ k : Nat, taggedIter C 0 k L
      = { i := L.i, value_id := L.value_id, dec := decAfter C L.dec k,
          st := { buf := L.st.buf, out := L.st.out,
                  log := L.st.log
                    ++ (List.range k).map (fun g => Event.decodeSymbol (nthSymbol C L.dec g)) } }
  | 0 => by simp [taggedIter, decAfter]
  | k + 1 => by
    have hstep : taggedIter C 0 (k + 1) L = (taggedGroup C 0 (taggedIter C 0 k L)).2 := by
      simp only [taggedIter, Function.iterate_succ_apply']
    have hd : decAfter C L.dec (k + 1) = (C.decodeSymbol (decAfter C L.dec k)).2 := by
      simp only [decAfter, Function.iterate_succ_apply']
    rw [hstep, taggedGroup_zero, taggedIter_zero C L k, hd, List.range_succ, List.map_append]
    simp [St.step, nthSymbol]

theorem taggedLoop_zero_none {β δ : Type} (C : Collab β δ) (nv : Int) :
    ∀ (fuel : Nat) (L : TagLoop β δ), L.i < nv → taggedLoop C nv 0 fuel L = none
  | 0, L, hi => by simp [taggedLoop, hi]
  | fuel + 1, L, hi => by
    rw [taggedLoop, if_pos hi, taggedGroup_zero]
    exact taggedLoop_zero_none C nv fuel _ (by simpa using hi)

theorem taggedLoop_zero_unroll {β δ : Type} (C : Collab β δ) (nv : Int) :
    ∀ (k fuel : Nat) (L : TagLoop β δ), L.i < nv →
      taggedLoop C nv 0 (k + fuel) L = taggedLoop C nv 0 fuel (taggedIter C 0 k L)
  | 0, fuel, L, _ => by simp [taggedIter]
  | k + 1, fuel, L, hi => by
    have e : k + 1 + fuel = (k + fuel) + 1 := by omega
    have hstep : taggedIter C 0 (k + 1) L = taggedIter C 0 k (taggedGroup C 0 L).2 := by
      simp only [taggedIter, Function.iterate_succ_apply]
    rw [e, taggedLoop, if_pos hi, hstep, taggedGroup_zero]
    exact taggedLoop_zero_unroll C nv k fuel _ (by simpa using hi)

/-- C16: `num_components` is not validated. With `num_components = 0`,
`num_values > 0`, selector 0 and a tag decoder that is created, started and
reports a non-empty table, the group loop makes no progress: its state after any
number `k` of iterations has `i = 0 < num_values`, `value_id = 0`, the stream and
the output buffer untouched and exactly `k` tag decodes recorded (no bit field
read, no slot written), the next iteration again completes, and the loop run
with any bound `k + fuel` is the loop run with bound `fuel` from that state. So
for no bound on the iterations does the tagged path, or the dispatcher, return. -/
theorem DecodeSymbols_zero_components_diverges {β δ : Type} (C : Collab β δ)
    (num_values : Int) (s : St β) (b : β) (d0 : δ) (b0 : β) (d1 : δ) (b1 : β)
    (hv : 0 < num_values) (hsel : C.decodeU8 s.buf = (some 0, b))
    (hcr : C.create 5 b = (true, d0, b0)) (hst : C.startDecoding d0 b0 = (true, d1, b1))
    (hn : C.numSymbols d1 ≠ 0) :
    (∀ fuel, DecodeSymbols C fuel num_values 0 s = none) ∧
    (∀ fuel, DecodeTaggedSymbols C fuel num_values 0 (s.step b (Event.readByte (some 0)))
      = none) ∧
    (∀ k : Nat,
      taggedIter C 0 k
          { i := 0, value_id := 0, dec := d1,
            st := { buf := C.startBitDecoding b1, out := s.out,
                    log := s.log ++ [Event.readByte (some 0), Event.create 5 true,
                      Event.startDecoding true, Event.startBitDecoding] } }
        = { i := 0, value_id := 0, dec := decAfter C d1 k,
            st := { buf := C.startBitDecoding b1, out := s.out,
                    log := (s.log ++ [Event.readByte (some 0), Event.create 5 true,
                        Event.startDecoding true, Event.startBitDecoding])
                      ++ (List.range k).map (fun g => Event.decodeSymbol (nthSymbol C d1 g)) } } ∧
      (taggedGroup C 0 (taggedIter C 0 k
          { i := 0, value_id := 0, dec := d1,
            st := { buf := C.startBitDecoding b1, out := s.out,
                    log := s.log ++ [Event.readByte (some 0), Event.create 5 true,
                      Event.startDecoding true, Event.startBitDecoding] } })).1 = true ∧
      (∀ fuel, taggedLoop C num_values 0 (k + fuel)
          { i := 0, value_id := 0, dec := d1,
            st := { buf := C.startBitDecoding b1, out := s.out,
                    log := s.log ++ [Event.readByte (some 0), Event.create 5 true,
                      Event.startDecoding true, Event.startBitDecoding] } }
        = taggedLoop C num_values 0 fuel (taggedIter C 0 k
          { i := 0, value_id := 0, dec := d1,
            st := { buf := C.startBitDecoding b1, out := s.out,
                    log := s.log ++ [Event.readByte (some 0), Event.create 5 true,
                      Event.startDecoding true, Event.startBitDecoding] } })) ∧
      ((List.range k).map (fun g => Event.decodeSymbol (nthSymbol C d1 g))).countP
          Event.isDecodeSymbol = k ∧
      ((List.range k).map (fun g => Event.decodeSymbol (nthSymbol C d1 g))).countP
          Event.isReadBits = 0 ∧
      ((List.range k).map (fun g => Event.decodeSymbol (nthSymbol C d1 g))).countP
          Event.isWrite = 0) := by
  have hn2 : ¬ (num_values > 0 ∧ C.numSymbols d1 = 0) := fun hh => hn hh.2
  have htag : ∀ fuel, DecodeTaggedSymbols C fuel num_values 0
      (s.step b (Event.readByte (some 0))) = none := by
    intro fuel
    have hb : (s.step b (Event.readByte (some 0))).buf = b := rfl
    simp only [DecodeTaggedSymbols, hb, hcr, hst, if_neg hn2]
    rw [taggedLoop_zero_none C num_values fuel _ (by simpa using hv)]
  refine ⟨?_, htag, ?_⟩
  · intro fuel
    have h0 : ¬ num_values < 0 := by omega
    have h1 : ¬ num_values = 0 := by omega
    simp only [DecodeSymbols, if_neg h0, if_neg h1, hsel, if_true]
    exact htag fuel
  · intro k
    refine ⟨taggedIter_zero C _ k, ?_, ?_, ?_, ?_, ?_⟩
    · rw [taggedGroup_zero]
    · intro fuel
      exact taggedLoop_zero_unroll C num_values k fuel _ (by simpa using hv)
    · rw [List.countP_map]
      simp [Function.comp_def, Event.isDecodeSymbol]
    · rw [List.countP_map]
      simp [Function.comp_def, Event.isReadBits]
    · rw [List.countP_map]
      simp [Function.comp_def, Event.isWrite]

/-- Instance of C16: three values, zero components, tagged selector and a valid
tag table over the demonstration collaborator; no bound of iterations gives a
result, here shown for the bound 50. -/
theorem DecodeSymbols_zero_components_diverges_witness :
    (0 : Int) < 3 ∧
    demo.decodeU8 (demoSt (0 :: demoTaggedStream)).buf = (some 0, demoTaggedStream) ∧
    demo.numSymbols ⟨4, [3, 5, 1]⟩ ≠ 0 ∧
    DecodeSymbols demo 50 3 0 (demoSt (0 :: demoTaggedStream)) = none :=
  ⟨by decide, rfl, by decide,
   (DecodeSymbols_zero_components_diverges demo 3 (demoSt (0 :: demoTaggedStream))
      demoTaggedStream ⟨4, []⟩ [3, 3, 5, 1, 6, 1, 17, 30, 1, 0] ⟨4, [3, 5, 1]⟩
      [6, 1, 17, 30, 1, 0] (by decide) rfl rfl rfl (by decide)).1 50⟩

end Draco
